import Mathlib

/-!
Verification of the immutable-table core of the agate library
(`src/agate/table/__init__.py`) against its specification.

The Python code is shallowly embedded: cell values become an inductive
`Value` type, rows and tables become structures, and `Table.__init__`
together with every transformation operator become Lean functions on
those structures.  Fallible Python code (raised `ValueError` /
`KeyError` / `TypeError`) is embedded as `Except Err`.  Components of
the repository that are referenced but whose source is not available
(`agate.utils.letter_name`, `agate.utils.NullOrder`,
`agate.mapped_sequence.MappedSequence`, `agate.rows.Row` lookup) are
modelled from the specification; each such definition carries a doc
comment saying so.
-/

set_option maxRecDepth 4096

namespace Agate

/-- A cell value.  The table core is polymorphic in the cell values it
stores; nulls (`None`), integers and strings are enough to exercise
every operator.  Python `==` between two such values coincides with
structural equality of this type (`None == None` is `True`, cross-type
`==` is `False`, same-type `==` compares the payloads). -/
inductive Value where
  | vnull : Value
  | vint (n : Int) : Value
  | vstr (s : String) : Value
deriving DecidableEq, Repr

/-- Whether a value is an `int` (`isinstance(row_name, int)` in the
row-name validation of `Table.__init__`). -/
def Value.isInt : Value → Bool
  | .vint _ => true
  | _ => false

/-- Python `<` between two cell values: defined within a type, a
`TypeError` (modelled as `none`) across types and on `None`. -/
def pyLt : Value → Value → Option Bool
  | .vint m, .vint n => some (decide (m < n))
  | .vstr s, .vstr t => some (decide (s < t))
  | _, _ => none

/-- Modelled from the spec: `agate.rows.Row` (not under `src/`), §3 —
"an immutable fixed-length tuple of typed values, addressable by
integer position or by column name via a name→position mapping shared
with the owning Table's column names". -/
structure Row where
  values : List Value
  names : List String
deriving DecidableEq, Repr

/-- First position of a name in a name list (the name→position map of
the Ordered Dual-Keyed Sequence, §3). -/
def idxOfName : List String → String → Option Nat
  | [], _ => none
  | m :: ms, n => if m = n then some 0 else (idxOfName ms n).map (· + 1)

/-- Modelled from the spec: name-based cell access `row[name]` (§4.4 —
"a Row's per-field access by column name resolves through a
name→position map").  A missing name is a `KeyError` (`none`). -/
def Row.get (r : Row) (n : String) : Option Value :=
  (idxOfName r.names n).bind (fun i => r.values.get? i)

/-- A casting capability (`agate.data_types.DataType`): the core only
invokes `cast`, which canonicalizes one raw cell value (§6).  Cast
failures are the external capability's responsibility and play no role
in the claims, so `cast` is total here. -/
structure DType where
  cast : Value → Value

/-- The construction-time and operator-time errors of the core, one
constructor per `raise` site reachable in the embedded code. -/
inductive Err where
  | stringRows
  | badColumnName
  | typesLengthMismatch
  | rowTooLong (i : Nat) (lenRow : Nat) (lenCols : Nat)
  | intRowName
  | rowNamesLengthMismatch
  | keyError (n : String)
  | cmpTypeError
  | iterNone
  | sliceStepZero
deriving DecidableEq, Repr

/-- The aggregate root.  `columns` is a derived view (see
`Table.columns`), so only the four write-once fields are stored. -/
structure Table where
  column_names : List String
  column_types : List DType
  rows : List Row
  row_names : Option (List Value)

/-- Modelled from the spec: a `Column` is "a view, not a copy: holds an
index, a name, a casting-capability reference, and a back-reference to
the owning Table's Row sequence" (§3).  Its observable content is the
i-th value of every row. -/
structure Column where
  index : Nat
  name : String
  data_type : DType
  values : List Value

/-- The column views of a table (`Table.__init__`, "Build columns"):
one `Column` per (name, type) pair, reading the i-th cell of each
row. -/
def Table.columns (t : Table) : List Column :=
  (List.range t.column_names.length).map fun i =>
    { index := i
      name := t.column_names.getD i ""
      data_type := t.column_types.getD i ⟨id⟩
      values := t.rows.map fun r => r.values.getD i .vnull }

/-- Type of the `data_type` of the column named `n`
(`self.columns[name].data_type`). -/
def Table.columnTypeOf (t : Table) (n : String) : Option DType :=
  (idxOfName t.column_names n).bind (fun i => t.column_types.get? i)

/-- Modelled from the spec: `agate.utils.letter_name` (§4.1 — each
placeholder is "a deterministic letter-based placeholder (`A`, `B`, …,
following a base-26 letter-naming scheme)"): the (i mod 26)-th capital
letter, repeated once more for every completed round of 26. -/
def letterName (i : Nat) : String :=
  String.mk (List.replicate (i / 26 + 1) (Char.ofNat (65 + i % 26)))

/-- One candidate name in the duplicate-resolution loop of
`Table.__init__`: `new_column_name + '_' + str(duplicates + 2)`. -/
def dupName (base : String) (d : Nat) : String :=
  base ++ "_" ++ toString d

/-- The `while final_column_name in final_column_names` loop: try
`base_2`, `base_3`, … until a candidate is free.  The loop terminates
because at most `taken.length` candidates can collide, which bounds the
fuel. -/
def dupLoop (taken : List String) (base : String) : Nat → Nat → String
  | d, 0 => dupName base d
  | d, fuel + 1 =>
    let c := dupName base d
    if taken.contains c then dupLoop taken base (d + 1) fuel else c

/-- Resolution of one column name against the ones already chosen. -/
def uniquifyName (taken : List String) (base : String) : String :=
  if taken.contains base then dupLoop taken base 2 (taken.length + 1) else base

/-- One entry of the `column_names` argument: a string, `None`, or a
value of any other type (which `Table.__init__` rejects with
"Column names must be strings or None."). -/
inductive NameArg where
  | strName (s : String)
  | noneName
  | badName
deriving DecidableEq, Repr

/-- The validation loop over supplied column names: `None` becomes a
letter placeholder, non-strings raise, duplicates get `_2`, `_3`, …
suffixes. -/
def resolveNamesLoop : List String → Nat → List NameArg → Except Err (List String)
  | acc, _, [] => .ok acc
  | acc, i, a :: rest => do
    let base ← match a with
      | .noneName => Except.ok (letterName i)
      | .strName s => Except.ok s
      | .badName => Except.error Err.badColumnName
    resolveNamesLoop (acc ++ [uniquifyName acc base]) (i + 1) rest

/-- One element of the `rows` argument: either a raw sequence of values
or an already-constructed `Row` (the fork path). -/
inductive RawRow where
  | raw (vs : List Value)
  | rowObj (r : Row)
deriving DecidableEq, Repr

/-- Iterating (or taking `len` of) a row argument yields its values,
whether it is a raw sequence or a `Row`. -/
def RawRow.vals : RawRow → List Value
  | .raw vs => vs
  | .rowObj r => r.values

/-- The fork path stores the given rows as `Row`s without any check
(§4.2: the caller guarantees they are `Row` instances; handing raw data
to fork is undefined behavior upstream of the core — a raw list is kept
with an empty name map). -/
def RawRow.asRow : RawRow → Row
  | .rowObj r => r
  | .raw vs => ⟨vs, []⟩

/-- The `rows` argument of `Table.__init__`: the constructor first
rejects a single string (`isinstance(rows, six.string_types)`). -/
inductive RowsInput where
  | strInput (s : String)
  | seqInput (rows : List RawRow)

/-- The `column_types` argument: an explicit sequence of casting
capabilities, or nothing — in which case the external inference
capability (`TypeTester`, §6; also the target of the dict form) is
consulted. -/
inductive TypesArg where
  | noTypes
  | someTypes (ts : List DType)

/-- The `row_names` argument: absent, a column name, a one-argument
function, or an explicit sequence of identifiers. -/
inductive RNArg where
  | rnNone
  | rnStr (s : String)
  | rnFun (f : Row → Value)
  | rnSeq (ns : List Value)

/-- Python truthiness of the `row_names` argument (`if row_names:`):
`None`, the empty string and the empty sequence are falsy. -/
def RNArg.truthy : RNArg → Bool
  | .rnNone => false
  | .rnStr s => !s.isEmpty
  | .rnFun _ => true
  | .rnSeq ns => !ns.isEmpty

/-- Left-to-right effectful map over a list, stopping at the first
error — the evaluation order of the corresponding Python loops and
comprehensions. -/
def exMap (f : α → Except Err β) : List α → Except Err (List β)
  | [] => .ok []
  | a :: as => do
    let b ← f a
    let bs ← exMap f as
    .ok (b :: bs)

/-- Casting of one input row at position `i` (`Table.__init__`, casting
loop): a row longer than the column count is rejected naming `i`; a
shorter row is padded with nulls; then every cell goes through the
corresponding column's cast. -/
def castRow (names : List String) (casts : List DType) (i : Nat) (rr : RawRow) :
    Except Err Row :=
  let row := rr.vals
  if row.length > names.length then
    .error (.rowTooLong i row.length names.length)
  else
    let padded := row ++ List.replicate (names.length - row.length) Value.vnull
    .ok ⟨List.zipWith (fun d v => d.cast v) casts padded, names⟩

/-- The casting loop over all input rows (enumerated, first error
wins). -/
def castRows (names : List String) (casts : List DType) :
    Nat → List RawRow → Except Err (List Row)
  | _, [] => .ok []
  | i, rr :: rest => do
    let r ← castRow names casts i rr
    let rs ← castRows names casts (i + 1) rest
    .ok (r :: rs)

/-- Row-name computation (`Table.__init__`): by column value, by
function, or verbatim; any integer identifier raises; a falsy argument
yields no row names. -/
def computeRowNames (arg : RNArg) (new_rows : List Row) :
    Except Err (Option (List Value)) :=
  if arg.truthy then do
    let ns ← match arg with
      | .rnStr s => exMap (fun r => match r.get s with
          | some v => .ok v
          | none => .error (.keyError s)) new_rows
      | .rnFun f => Except.ok (new_rows.map f)
      | .rnSeq ns => Except.ok ns
      | .rnNone => Except.ok []
    if ns.any Value.isInt then .error .intRowName
    else .ok (some ns)
  else .ok none

/-- Modelled from the spec: `agate.mapped_sequence.MappedSequence` (not
under `src/`).  Per §3 an Ordered Dual-Keyed Sequence "wraps an ordered
sequence of values plus an optional parallel ordered sequence of unique
names", and §7 lists "row_names length mismatch" among the ShapeErrors:
building the keyed row sequence validates that the name sequence
parallels the value sequence. -/
def mappedSeqCheck (numVals : Nat) : Option (List Value) → Except Err Unit
  | none => .ok ()
  | some ks => if ks.length = numVals then .ok () else .error .rowNamesLengthMismatch

/-- Column-name resolution (`Table.__init__`, "Validate column
names"): a truthy `column_names` argument goes through the validation
loop; otherwise non-empty rows get letter placeholders sized by the
first row, and an empty table gets no columns. -/
def resolveColumnNames (column_names : Option (List NameArg)) (rs : List RawRow) :
    Except Err (List String) :=
  match column_names with
  | some (a :: args) => resolveNamesLoop [] 0 (a :: args)
  | some [] | none =>
    if rs.isEmpty then Except.ok ([] : List String)
    else Except.ok ((List.range (rs.headD (.raw [])).vals.length).map letterName)

/-- The validated constructor `Table.__init__`.  `infer` stands for the
external type-inference capability (§6), consulted only when no
explicit types are supplied.  The stages appear in source order: the
string-rows guard, column-name resolution, type resolution and length
check, casting (skipped when `is_fork`), row-name computation and the
keyed-sequence assembly. -/
def tableInit (infer : List RawRow → List String → List DType)
    (rows : RowsInput) (column_names : Option (List NameArg))
    (column_types : TypesArg) (row_names : RNArg) (is_fork : Bool) :
    Except Err Table := do
  match rows with
  | .strInput _ => .error .stringRows
  | .seqInput rs =>
    let names ← resolveColumnNames column_names rs
    let types := match column_types with
      | .noTypes => infer rs names
      | .someTypes ts => ts
    if names.length ≠ types.length then
      .error .typesLengthMismatch
    else do
      let new_rows ← if is_fork then .ok (rs.map RawRow.asRow)
        else castRows names types 0 rs
      let rnames ← computeRowNames row_names new_rows
      let _ ← mappedSeqCheck new_rows.length rnames
      .ok ⟨names, types, new_rows, rnames⟩

/-- The fork constructor `Table._fork`: reuse this table's column
names/types/row-names unless overridden and re-enter `Table.__init__`
with `_is_fork=True`.  The inference capability is never consulted on
this path (explicit types are always passed). -/
def Table.fork (t : Table) (rows : List Row) (cn : Option (List String))
    (ct : Option (List DType)) (rn : Option (List Value)) : Except Err Table :=
  let cn' := cn.getD t.column_names
  let ct' := ct.getD t.column_types
  let rn' := match rn with
    | none => t.row_names
    | some ns => some ns
  tableInit (fun _ _ => []) (.seqInput (rows.map .rowObj)) (some (cn'.map .strName))
    (.someTypes ct') (match rn' with | none => .rnNone | some ns => .rnSeq ns) true

/-- A `key` argument that is either one column name or a sequence of
column names (`utils.issequence` discrimination, §9 tagged variant). -/
inductive KeyArg where
  | one (s : String)
  | many (ks : List String)
deriving DecidableEq, Repr

/-- The `if not utils.issequence(key): key = [key]` normalization. -/
def KeyArg.toList : KeyArg → List String
  | .one s => [s]
  | .many ks => ks

/-- `Table.select`: look up the type of every requested column
(`KeyError` on a missing name), project every row onto the keys in the
given order, and fork. -/
def Table.select (t : Table) (key : KeyArg) : Except Err Table := do
  let ks := key.toList
  let column_types ← exMap (fun n => match t.columnTypeOf n with
    | some d => .ok d
    | none => .error (.keyError n)) ks
  let new_rows ← exMap (fun r => do
    let vs ← exMap (fun n => match r.get n with
      | some v => Except.ok v
      | none => Except.error (Err.keyError n)) ks
    Except.ok (⟨vs, ks⟩ : Row)) t.rows
  t.fork new_rows (some ks) (some column_types) none

/-- `Table.exclude`: `select` over the complement of the keys,
preserving original column order. -/
def Table.exclude (t : Table) (key : KeyArg) : Except Err Table :=
  let ks := key.toList
  t.select (.many (t.column_names.filter (fun n => !ks.contains n)))

/-- Enumeration of a list from a starting index (Python
`enumerate`). -/
def enumFromL (i : Nat) : List α → List (Nat × α)
  | [] => []
  | a :: as => (i, a) :: enumFromL (i + 1) as

/-- Enumeration of a list (Python `enumerate`). -/
def enumL (l : List α) : List (Nat × α) := enumFromL 0 l

/-- `Table.where`: keep the rows (and the row names at the same
positions, when present) passing the test, in original order, and
fork.  The index into the row-name sequence is always in range for a
well-formed table (the name sequence parallels the rows). -/
def Table.whereT (t : Table) (test : Row → Bool) : Except Err Table :=
  let kept := (enumL t.rows).filter (fun p => test p.2)
  let rows := kept.map (·.2)
  let row_names := match t.row_names with
    | some ns => some (kept.map (fun p => ns.getD p.1 .vnull))
    | none => none
  t.fork rows none none row_names

/-- `Table.find`: the first row passing the test, or `None`. -/
def Table.find (t : Table) (test : Row → Bool) : Option Row :=
  t.rows.find? test

/-- The `key` argument of `order_by`: a column name, a sequence of
column names, or a row function (§9 tagged variant; the source
discriminates with `hasattr(key, '__call__')` and
`utils.issequence`). -/
inductive OKey where
  | oStr (s : String)
  | oSeq (ks : List String)
  | oFun (f : Row → Value)

/-- A computed sort key: the `NullOrder` sentinel, a single value, or a
tuple of cell values.  `nullOrd` is modelled from the spec:
`agate.utils.NullOrder` (not under `src/`) "compares less than all
other values and equal only to itself" (§4.3). -/
inductive SortKey where
  | nullOrd
  | val (v : Value)
  | tup (vs : List Value)
deriving DecidableEq, Repr

/-- The `sort_key` closure of `Table.order_by`: a row function is
applied, a sequence key builds the tuple of cell values, a single name
reads one cell; only a result that is `None` itself — never a null
inside the tuple — is replaced by the `NullOrder` sentinel. -/
def sortKeyOf (key : OKey) (r : Row) : Except Err SortKey :=
  match key with
  | .oFun f => .ok (if f r = .vnull then .nullOrd else .val (f r))
  | .oSeq ks => do
    let vs ← exMap (fun n => match r.get n with
      | some v => Except.ok v
      | none => Except.error (Err.keyError n)) ks
    .ok (.tup vs)
  | .oStr s => match r.get s with
    | some v => .ok (if v = .vnull then .nullOrd else .val v)
    | none => .error (.keyError s)

/-- Python comparison of two cell values as used inside tuple
comparison: equality first (total), then `<` (a `TypeError`, i.e.
`none`, across types and on `None`). -/
def pyCmpV (a b : Value) : Option Ordering :=
  if a = b then some .eq
  else match pyLt a b with
    | some true => some .lt
    | some false => some .gt
    | none => none

/-- Python lexicographic tuple comparison: scan for the first pair of
unequal components and compare it with `<`; a fully-scanned shorter
tuple is smaller. -/
def lexCmpV : List Value → List Value → Option Ordering
  | [], [] => some .eq
  | [], _ :: _ => some .lt
  | _ :: _, [] => some .gt
  | a :: as, b :: bs => if a = b then lexCmpV as bs else pyCmpV a b

/-- Python comparison of two sort keys: the `NullOrder` sentinel is
below everything and equal only to itself; values and tuples compare
within their kind and raise `TypeError` (`none`) across kinds. -/
def cmpSK : SortKey → SortKey → Option Ordering
  | .nullOrd, .nullOrd => some .eq
  | .nullOrd, _ => some .lt
  | _, .nullOrd => some .gt
  | .val a, .val b => pyCmpV a b
  | .tup as, .tup bs => lexCmpV as bs
  | _, _ => none

/-- Whether every pair of keys compares without a `TypeError`.
Python's sort raises lazily, at the first comparison it performs on an
incomparable pair; the model fails whenever some pair of keys is
incomparable. -/
def allComparable (ks : List SortKey) : Bool :=
  ks.all (fun a => ks.all (fun b => (cmpSK a b).isSome))

/-- Order-embedding of cell values used to run the sort: null below
every integer below every string, payloads ordered naturally.  On every
pair that Python compares without `TypeError` this coincides with
Python's `<`; `order_by` errors out before sorting otherwise, so the
extension to incomparable pairs is never observable. -/
def encV : Value → (Unit ⊕ₗ Int) ⊕ₗ String
  | .vnull => toLex (Sum.inl (toLex (Sum.inl ())))
  | .vint n => toLex (Sum.inl (toLex (Sum.inr n)))
  | .vstr s => toLex (Sum.inr s)

/-- Order-embedding of sort keys: the `NullOrder` sentinel below single
values below tuples, tuples ordered lexicographically.  As with `encV`,
it agrees with Python comparison wherever the latter is defined. -/
def encSK : SortKey → (Unit ⊕ₗ ((Unit ⊕ₗ Int) ⊕ₗ String)) ⊕ₗ List ((Unit ⊕ₗ Int) ⊕ₗ String)
  | .nullOrd => toLex (Sum.inl (toLex (Sum.inl ())))
  | .val v => toLex (Sum.inl (toLex (Sum.inr (encV v))))
  | .tup vs => toLex (Sum.inr (vs.map encV))

/-- A sort entry: original row index, computed sort key, row. -/
abbrev Ent := Nat × SortKey × Row

/-- The total order driving the embedded sort: by key (flipped when
`reverse`), with ties broken by original index.  Python's `sorted` is
stable, and a stable sort by key is exactly a sort by the lexicographic
(key, original index) order; `reverse=True` flips the key comparison
but not the tie-break, which is `sorted`'s documented stable-reverse
behavior. -/
def entLE (rev : Bool) (p q : Ent) : Bool :=
  if encSK p.2.1 = encSK q.2.1 then decide (p.1 ≤ q.1)
  else if rev then decide (encSK q.2.1 < encSK p.2.1)
  else decide (encSK p.2.1 < encSK q.2.1)

/-- Stable insertion of one element: `a` goes in front of the first
element it compares `le` to, hence after every earlier element of equal
rank. -/
def insertLe (le : α → α → Bool) (a : α) : List α → List α
  | [] => [a]
  | b :: bs => if le a b then a :: b :: bs else b :: insertLe le a bs

/-- Stable insertion sort.  `Table.order_by` sorts by the total
(key, original index) order `entLE`, which is antisymmetric on the
enumerated entries, so every correct sorting algorithm — Python's
Timsort included — produces this exact result; insertion sort keeps the
model kernel-computable. -/
def insertionSort (le : α → α → Bool) : List α → List α
  | [] => []
  | a :: as => insertLe le a (insertionSort le as)

/-- Key computation over the enumerated rows
(`sorted(enumerate(self._rows), key=sort_key, ...)` computes each key
once, in order, before comparing). -/
def computeKeys (key : OKey) : List (Nat × Row) → Except Err (List Ent)
  | [] => .ok []
  | (i, r) :: rest => do
    let k ← sortKeyOf key r
    let ks ← computeKeys key rest
    .ok ((i, k, r) :: ks)

/-- `Table.order_by`: an empty table forks unchanged; otherwise the
enumerated rows are stably sorted by `sort_key` and the row names are
permuted by the same index permutation. -/
def Table.order_by (t : Table) (key : OKey) (reverse : Bool) : Except Err Table :=
  if t.rows.isEmpty then t.fork t.rows none none none
  else do
    let keyed ← computeKeys key (enumL t.rows)
    if allComparable (keyed.map (·.2.1)) then
      let sorted := insertionSort (entLE reverse) keyed
      let rows := sorted.map (·.2.2)
      let row_names := match t.row_names with
        | some ns => some (sorted.map (fun p => ns.getD p.1 .vnull))
        | none => none
      t.fork rows none none row_names
    else .error .cmpTypeError

/-- Python truthiness of an optional slice bound (`if stop or step:`
treats both `None` and `0` as absent). -/
def truthyI : Option Int → Bool
  | none => false
  | some n => n ≠ 0

/-- CPython's clamping of one explicit slice index against length `n`
(`PySlice_AdjustIndices`): negative indices count from the end, then
everything is clamped to the valid range for the step direction. -/
def adjIdx (n : Int) (stepNeg : Bool) (i : Int) : Int :=
  if i < 0 then
    if i + n < 0 then (if stepNeg then -1 else 0) else i + n
  else
    if i ≥ n then (if stepNeg then n - 1 else n) else i

/-- Number of elements selected by an adjusted slice
(CPython `PySlice_AdjustIndices`). -/
def sliceLen (start stop step : Int) : Nat :=
  if step < 0 then
    if stop < start then ((start - stop - 1) / (-step) + 1).toNat else 0
  else
    if start < stop then ((stop - start - 1) / step + 1).toNat else 0

/-- Generic Python slicing `l[start:stop:step]` of a sequence: `none`
is a zero step (`ValueError`); otherwise the selected indices are
`start + k*step` for `k` below the slice length, all in range by
construction. -/
def pySlice (l : List α) (start stop step : Option Int) : Option (List α) :=
  let stepv := step.getD 1
  if stepv = 0 then none
  else
    let n : Int := l.length
    let stepNeg := stepv < 0
    let startv := match start with
      | some i => adjIdx n stepNeg i
      | none => if stepNeg then n - 1 else 0
    let stopv := match stop with
      | some i => adjIdx n stepNeg i
      | none => if stepNeg then -1 else n
    some ((List.range (sliceLen startv stopv stepv)).filterMap
      (fun k : Nat => l.get? (startv + (k : Int) * stepv).toNat))

/-- The slice bounds `limit` actually uses: `if stop or step:` selects
`slice(start_or_stop, stop, step)`, and otherwise
`slice(start_or_stop)` — i.e. the single argument becomes the stop
bound. -/
def limitSliceArgs (start_or_stop stop step : Option Int) :
    Option Int × Option Int × Option Int :=
  if truthyI stop || truthyI step then (start_or_stop, stop, step)
  else (none, start_or_stop, none)

/-- `Table.limit`: when `stop` or `step` is truthy the three arguments
form the slice `start:stop:step`; otherwise the single argument is the
stop bound (`slice(start_or_stop)`).  The slice is applied to the rows
and identically to the row names (spec §3: slicing an Ordered
Dual-Keyed Sequence "returns a new instance with the corresponding name
sub-sequence sliced identically" — `MappedSequence.__getitem__` is not
under `src/`). -/
def Table.limit (t : Table) (start_or_stop stop step : Option Int) :
    Except Err Table := do
  let s := limitSliceArgs start_or_stop stop step
  let rows ← match pySlice t.rows s.1 s.2.1 s.2.2 with
    | none => Except.error Err.sliceStepZero
    | some rs => Except.ok rs
  let row_names := match t.row_names with
    | some ns => (pySlice ns s.1 s.2.1 s.2.2).map some |>.getD none
    | none => none
  t.fork rows none none row_names

/-- The `key` argument of `distinct`. -/
inductive DKey where
  | dNone
  | dStr (s : String)
  | dSeq (ks : List String)
  | dFun (f : Row → Value)

/-- A dedup key as held in the `uniques` list.  For a sequence key the
source builds `k = (row[j] for j in key)` — a generator object, not a
tuple; generators define no `__eq__`, so the later `k not in uniques`
membership test falls back to object identity.  The generator is
modelled by the identity of the iteration that allocated it (its row
index); its contents are never evaluated. -/
inductive KeyVal where
  | kvGen (rowIdx : Nat)
  | kvVal (v : Value)
  | kvTup (vs : List Value)
deriving DecidableEq, Repr

/-- The key computed for the row at index `i` in the `distinct`
loop. -/
def keyValOf (key : DKey) (i : Nat) (r : Row) : Except Err KeyVal :=
  match key with
  | .dFun f => .ok (.kvVal (f r))
  | .dSeq _ => .ok (.kvGen i)
  | .dNone => .ok (.kvTup r.values)
  | .dStr s => match r.get s with
    | some v => .ok (.kvVal v)
    | none => .error (.keyError s)

/-- The `for i, row in enumerate(self._rows)` loop of `distinct`: keep
a row when its key is not yet in `uniques`. -/
def distinctGo (key : DKey) : List KeyVal → List (Nat × Row) →
    Except Err (List (Nat × Row))
  | _, [] => .ok []
  | uniques, (i, r) :: rest => do
    let k ← keyValOf key i r
    if uniques.contains k then distinctGo key uniques rest
    else do
      let kept ← distinctGo key (uniques ++ [k]) rest
      .ok ((i, r) :: kept)

/-- `Table.distinct`: first-seen row per distinct key, in original
order, with the row names of the kept rows. -/
def Table.distinct (t : Table) (key : DKey) : Except Err Table := do
  let kept ← distinctGo key [] (enumL t.rows)
  let rows := kept.map (·.2)
  let row_names := match t.row_names with
    | some ns => some (kept.map (fun p => ns.getD p.1 .vnull))
    | none => none
  t.fork rows none none row_names

/-- The `column_names` argument of `rename`: absent, a replacement
sequence, or a partial old-name→new-name mapping. -/
inductive RenCols where
  | rcNone
  | rcList (ns : List NameArg)
  | rcDict (d : List (String × String))

/-- The `row_names` argument of `rename`. -/
inductive RenRows where
  | rrNone
  | rrList (ns : List Value)
  | rrDict (d : List (Value × Value))

/-- `Table.rename`: dictionaries are normalized against the current
names (iterating `self.row_names` when it is `None` is a `TypeError`);
changed column names re-enter the validated constructor (which
re-casts), otherwise the table is forked.  The source compares the
normalized list against the current name tuple with `!=`; the embedding
compares by value. -/
def Table.rename (t : Table) (cn : RenCols) (rn : RenRows) : Except Err Table := do
  let cn' : Option (List NameArg) ← match cn with
    | .rcNone => Except.ok none
    | .rcList l => Except.ok (some l)
    | .rcDict d => Except.ok (some (t.column_names.map
        (fun n => NameArg.strName (((d.find? (fun p => p.1 = n)).map (·.2)).getD n))))
  let rn' : Option (List Value) ← match rn with
    | .rrNone => Except.ok none
    | .rrList l => Except.ok (some l)
    | .rrDict d => match t.row_names with
      | none => Except.error Err.iterNone
      | some ns => Except.ok (some (ns.map
          (fun n => (((d.find? (fun p => p.1 = n)).map (·.2)).getD n))))
  match cn' with
  | some l =>
    if l ≠ t.column_names.map NameArg.strName then
      let rnEff := match rn' with
        | none => t.row_names
        | some ns => some ns
      tableInit (fun _ _ => []) (.seqInput (t.rows.map .rowObj)) (some l)
        (.someTypes t.column_types)
        (match rnEff with | none => .rnNone | some ns => .rnSeq ns) false
    else t.fork t.rows none (some t.column_types) rn'
  | none => t.fork t.rows none (some t.column_types) rn'

/-- One transformation-operator invocation, with its arguments. -/
inductive Op where
  | opSelect (key : KeyArg)
  | opExclude (key : KeyArg)
  | opWhere (test : Row → Bool)
  | opOrderBy (key : OKey) (reverse : Bool)
  | opLimit (a b c : Option Int)
  | opDistinct (key : DKey)
  | opRename (cn : RenCols) (rn : RenRows)

/-- State-passing form of one operator call: the receiver table after
the call, paired with the operator's result.  Every operator body only
reads `self` and builds its result through the constructor, so the
post-state is the receiver itself. -/
def runOp (t : Table) (op : Op) : Table × Except Err Table :=
  (t, match op with
    | .opSelect k => t.select k
    | .opExclude k => t.exclude k
    | .opWhere p => t.whereT p
    | .opOrderBy k r => t.order_by k r
    | .opLimit a b c => t.limit a b c
    | .opDistinct k => t.distinct k
    | .opRename cn rn => t.rename cn rn)

instance exceptDecEq {ε α : Type} [DecidableEq ε] [DecidableEq α] :
    DecidableEq (Except ε α)
  | .ok a, .ok b =>
    if h : a = b then .isTrue (by rw [h])
    else .isFalse (by intro hc; cases hc; exact h rfl)
  | .error e, .error f =>
    if h : e = f then .isTrue (by rw [h])
    else .isFalse (by intro hc; cases hc; exact h rfl)
  | .ok _, .error _ => .isFalse (by intro hc; cases hc)
  | .error _, .ok _ => .isFalse (by intro hc; cases hc)

/-- Well-formedness of the optional row-name sequence of a constructed
table: it parallels the rows, is only present when non-empty (the
constructor's truthiness check) and holds no integers. -/
def wfRowNames : Option (List Value) → Nat → Bool
  | none, _ => true
  | some ns, n => decide (ns.length = n) && !ns.isEmpty && ns.all (fun v => !v.isInt)

/-- The invariants every table built by the validated constructor
satisfies (§3 data-model invariants), as a decidable check. -/
def wfB (t : Table) : Bool :=
  decide t.column_names.Nodup &&
  decide (t.column_names.length = t.column_types.length) &&
  t.rows.all (fun r => decide (r.names = t.column_names) &&
    decide (r.values.length = t.column_names.length)) &&
  wfRowNames t.row_names t.rows.length

/-- Well-formedness of a table, as a proposition. -/
def WF (t : Table) : Prop := wfB t = true

instance wfDecidable (t : Table) : Decidable (WF t) :=
  inferInstanceAs (Decidable (wfB t = true))

theorem WF.nodup {t : Table} (h : WF t) : t.column_names.Nodup := by
  simp only [WF, wfB, Bool.and_eq_true, decide_eq_true_eq] at h
  exact h.1.1.1

theorem WF.typesLen {t : Table} (h : WF t) :
    t.column_names.length = t.column_types.length := by
  simp only [WF, wfB, Bool.and_eq_true, decide_eq_true_eq] at h
  exact h.1.1.2

theorem WF.rowsOK {t : Table} (h : WF t) :
    ∀ r ∈ t.rows, r.names = t.column_names ∧
      r.values.length = t.column_names.length := by
  simp only [WF, wfB, Bool.and_eq_true, List.all_eq_true, decide_eq_true_eq] at h
  exact h.1.2

theorem WF.rowNamesOK {t : Table} (h : WF t) :
    ∀ ns, t.row_names = some ns → ns.length = t.rows.length ∧
      ¬ns.isEmpty ∧ ∀ v ∈ ns, v.isInt = false := by
  simp only [WF, wfB, Bool.and_eq_true] at h
  intro ns hns
  have h2 := h.2
  rw [hns] at h2
  simp only [wfRowNames, Bool.and_eq_true, List.all_eq_true, decide_eq_true_eq] at h2
  exact ⟨h2.1.1, by simpa using h2.1.2, by simpa using h2.2⟩

/-- The optional row-name sequence actually stored by the constructor:
an empty sequence is falsy and stored as "no row names". -/
def normRN : Option (List Value) → Option (List Value)
  | none => none
  | some ns => if ns.isEmpty then none else some ns

/-- The `row_names` argument the fork path passes on. -/
def rnArgOf : Option (List Value) → RNArg
  | none => .rnNone
  | some ns => .rnSeq ns

theorem uniquifyName_fresh (taken : List String) (base : String)
    (h : base ∉ taken) : uniquifyName taken base = base := by
  have hc : taken.contains base = false := by
    simpa using h
  unfold uniquifyName
  rw [hc]
  rfl

theorem resolveNamesLoop_id (ns : List String) (acc : List String) (i : Nat)
    (hnd : (acc ++ ns).Nodup) :
    resolveNamesLoop acc i (ns.map .strName) = .ok (acc ++ ns) := by
  induction ns generalizing acc i with
  | nil => simp [resolveNamesLoop]
  | cons n rest ih =>
    have hsplit := List.nodup_append.mp hnd
    have hn : n ∉ acc := fun hmem => hsplit.2.2 hmem (List.mem_cons_self n rest)
    have hstep : uniquifyName acc n = n := uniquifyName_fresh acc n hn
    have hnd' : ((acc ++ [n]) ++ rest).Nodup := by
      rw [List.append_assoc]
      simpa using hnd
    have h0 : resolveNamesLoop acc i ((n :: rest).map .strName) =
        resolveNamesLoop (acc ++ [uniquifyName acc n]) (i + 1) (rest.map .strName) := rfl
    rw [h0, hstep, ih (acc ++ [n]) (i + 1) hnd', List.append_assoc]
    rfl

theorem resolveColumnNames_fork (cnames : List String) (hnd : cnames.Nodup)
    (rows : List Row) (hrows : ∀ r ∈ rows, r.values.length = cnames.length) :
    resolveColumnNames (some (cnames.map .strName)) (rows.map .rowObj) =
      .ok cnames := by
  cases cnames with
  | nil =>
    cases rows with
    | nil => rfl
    | cons r rs =>
      have h0 : r.values.length = 0 := hrows r (List.mem_cons_self r rs)
      simp [resolveColumnNames, RawRow.vals, h0]
  | cons c cs =>
    simpa using resolveNamesLoop_id (c :: cs) [] 0 (by simpa using hnd)

theorem exceptBind_ok (a : α) (f : α → Except Err β) :
    (Bind.bind (Except.ok a) f : Except Err β) = f a := rfl

theorem computeRowNames_fork (rows : List Row) (rnEff : Option (List Value))
    (hrn : ∀ ns, rnEff = some ns → ¬ns.isEmpty → ∀ v ∈ ns, v.isInt = false) :
    computeRowNames (rnArgOf rnEff) rows = .ok (normRN rnEff) := by
  cases rnEff with
  | none => rfl
  | some ns =>
    by_cases he : ns.isEmpty
    · simp [computeRowNames, rnArgOf, RNArg.truthy, he, normRN]
    · have hint : ns.any Value.isInt = false := by
        simp only [List.any_eq_false]
        intro v hv
        simpa using hrn ns rfl he v hv
      simp only [computeRowNames, rnArgOf, RNArg.truthy, he, Bool.not_false,
        if_true, exceptBind_ok]
      simp only [hint, Bool.false_eq_true, if_false, normRN, he, ite_false]

theorem mappedSeqCheck_fork (rows : List Row) (rnEff : Option (List Value))
    (hrn : ∀ ns, rnEff = some ns → ¬ns.isEmpty → ns.length = rows.length) :
    mappedSeqCheck rows.length (normRN rnEff) = .ok () := by
  cases rnEff with
  | none => rfl
  | some ns =>
    by_cases he : ns.isEmpty
    · simp [normRN, he, mappedSeqCheck]
    · simp [normRN, he, mappedSeqCheck, hrn ns rfl he]

/-- The fork path of the constructor succeeds on well-shaped data and
stores its arguments unchanged. -/
theorem tableInitFork_ok (infer : List RawRow → List String → List DType)
    (cnames : List String) (hnd : cnames.Nodup)
    (ctypes : List DType) (hty : cnames.length = ctypes.length)
    (rows : List Row) (hrows : ∀ r ∈ rows, r.values.length = cnames.length)
    (rnEff : Option (List Value))
    (hrn : ∀ ns, rnEff = some ns → ¬ns.isEmpty →
      ns.length = rows.length ∧ ∀ v ∈ ns, v.isInt = false) :
    tableInit infer (.seqInput (rows.map .rowObj)) (some (cnames.map .strName))
      (.someTypes ctypes) (rnArgOf rnEff) true =
      .ok ⟨cnames, ctypes, rows, normRN rnEff⟩ := by
  have h1 := resolveColumnNames_fork cnames hnd rows hrows
  have h2 : (rows.map RawRow.rowObj).map RawRow.asRow = rows := by
    rw [List.map_map]
    simp [Function.comp_def, RawRow.asRow]
  have h3 := computeRowNames_fork rows rnEff
    (fun ns h he => (hrn ns h he).2)
  have h4 := mappedSeqCheck_fork rows rnEff
    (fun ns h he => (hrn ns h he).1)
  simp only [tableInit, h1, exceptBind_ok, hty, h2]
  simp only [hty, ite_true, if_true, exceptBind_ok, h3, h4]
  simp

/-- The row-name sequence `Table._fork` passes down: the caller's
argument, defaulting to the receiver's row names. -/
def rnDefault (t : Table) : Option (List Value) → Option (List Value)
  | none => t.row_names
  | some ns => some ns

/-- Restatement of `tableInitFork_ok` through `Table.fork`. -/
theorem fork_ok (t : Table) (hnd : t.column_names.Nodup)
    (hty : t.column_names.length = t.column_types.length)
    (rows : List Row) (hrows : ∀ r ∈ rows, r.values.length = t.column_names.length)
    (rn : Option (List Value))
    (hrn : ∀ ns, rnDefault t rn = some ns →
      ¬ns.isEmpty → ns.length = rows.length ∧ ∀ v ∈ ns, v.isInt = false) :
    t.fork rows none none rn =
      .ok ⟨t.column_names, t.column_types, rows, normRN (rnDefault t rn)⟩ := by
  have hmain := tableInitFork_ok (fun _ _ => []) t.column_names hnd t.column_types hty
    rows hrows (rnDefault t rn) hrn
  unfold Table.fork
  cases rn with
  | none => simpa [rnDefault] using hmain
  | some ns => simpa [rnDefault] using hmain

/-- Position (and value length) of the first input row longer than the
column count, if any. -/
def firstLong (w : Nat) : Nat → List RawRow → Option (Nat × Nat)
  | _, [] => none
  | i, rr :: rest =>
    if rr.vals.length > w then some (i, rr.vals.length)
    else firstLong w (i + 1) rest

/-- The row stored for one input row that fits: null-padded to the
column count, each cell cast by its column's capability. -/
def castedRow (names : List String) (casts : List DType) (rr : RawRow) : Row :=
  ⟨List.zipWith (fun d v => d.cast v)
    casts (rr.vals ++ List.replicate (names.length - rr.vals.length) Value.vnull),
    names⟩

theorem exceptBind_err (e : Err) (f : α → Except Err β) :
    (Bind.bind (Except.error e) f : Except Err β) = .error e := rfl

theorem castRows_spec (names : List String) (casts : List DType) (i : Nat)
    (rrs : List RawRow) :
    castRows names casts i rrs =
      match firstLong names.length i rrs with
      | some (j, len) => .error (.rowTooLong j len names.length)
      | none => .ok (rrs.map (castedRow names casts)) := by
  induction rrs generalizing i with
  | nil => rfl
  | cons rr rest ih =>
    by_cases hlong : rr.vals.length > names.length
    · simp [castRows, castRow, firstLong, hlong, exceptBind_err]
    · simp only [castRows, castRow, firstLong, hlong, if_false, if_neg hlong,
        exceptBind_ok, ih (i + 1), Bool.false_eq_true, ite_false]
      cases firstLong names.length (i + 1) rest with
      | none => simp [castedRow, exceptBind_ok]
      | some p =>
        obtain ⟨j, len⟩ := p
        simp [exceptBind_err]

theorem firstLong_ge (w : Nat) (i : Nat) (rrs : List RawRow) (j p : Nat)
    (h : firstLong w i rrs = some (j, p)) : i ≤ j := by
  induction rrs generalizing i with
  | nil => simp [firstLong] at h
  | cons rr rest ih =>
    by_cases hlong : rr.vals.length > w
    · simp only [firstLong, hlong, if_true, ite_true, Option.some_inj,
        Prod.mk.injEq] at h
      omega
    · simp only [firstLong, hlong, if_false, ite_false, Bool.false_eq_true] at h
      have := ih (i + 1) h
      omega

/-- A concrete identity casting capability, used to instantiate
witnesses. -/
def dtId : DType := ⟨id⟩

/-! ## The claims -/

/-- C1: every transformation operator (select, exclude, where,
order_by, limit, distinct, rename) leaves the receiver table — its
column_names, column_types, rows, columns and row_names — exactly as it
was and only returns a fresh result; in the state-passing embedding the
receiver state after the call is the receiver itself, because no
operator body writes a field. -/
theorem operators_leave_receiver_unchanged (t : Table) (op : Op) :
    (runOp t op).1 = t ∧
    (runOp t op).1.column_names = t.column_names ∧
    (runOp t op).1.column_types = t.column_types ∧
    (runOp t op).1.rows = t.rows ∧
    (runOp t op).1.columns = t.columns ∧
    (runOp t op).1.row_names = t.row_names :=
  ⟨rfl, rfl, rfl, rfl, rfl, rfl⟩

/-- C9: a string `rows` argument makes construction fail immediately
with the usage error, whatever the other arguments are — before name
resolution (even an invalid name list is not inspected), type
resolution and casting. -/
theorem string_rows_fails_first (infer : List RawRow → List String → List DType)
    (s : String) (cn : Option (List NameArg)) (ta : TypesArg) (rn : RNArg)
    (isf : Bool) :
    tableInit infer (.strInput s) cn ta rn isf = .error .stringRows := rfl

/-- C6: during validated (non-fork) construction, the first input row
longer than the column count aborts construction with a shape error
naming its position; when no row is too long, every row is stored
null-padded to the column count with each cell passed exactly once
through the corresponding column's cast (the casts are universally
quantified, so the stored cell is the single application
`cast cell`). -/
theorem casting_stage_spec (infer : List RawRow → List String → List DType)
    (cnames : List String) (hne : cnames ≠ []) (hnd : cnames.Nodup)
    (ctypes : List DType) (hty : cnames.length = ctypes.length)
    (rrs : List RawRow) :
    tableInit infer (.seqInput rrs) (some (cnames.map .strName))
      (.someTypes ctypes) .rnNone false =
      match firstLong cnames.length 0 rrs with
      | some (j, len) => .error (.rowTooLong j len cnames.length)
      | none => .ok ⟨cnames, ctypes, rrs.map (castedRow cnames ctypes), none⟩ := by
  obtain ⟨c, cs, rfl⟩ : ∃ c cs, cnames = c :: cs := by
    cases cnames with
    | nil => exact absurd rfl hne
    | cons c cs => exact ⟨c, cs, rfl⟩
  have h1 : resolveColumnNames (some ((c :: cs).map .strName)) rrs = .ok (c :: cs) := by
    simpa using resolveNamesLoop_id (c :: cs) [] 0 (by simpa using hnd)
  simp only [tableInit, h1, exceptBind_ok, hty, ite_true]
  simp only [hty, ne_eq, not_true_eq_false, if_false, ite_false,
    Bool.false_eq_true, exceptBind_ok, castRows_spec]
  cases h2 : firstLong ctypes.length 0 rrs with
  | some p =>
    obtain ⟨j, len⟩ := p
    rfl
  | none => rfl

/-- C6 witness: a two-column table over identity casts; the short row
`[7]` is padded with a null and both cells are cast, the fitting row is
cast cell-by-cell. -/
theorem casting_stage_spec_witness :
    (["a", "b"] : List String) ≠ [] ∧ (["a", "b"] : List String).Nodup ∧
    (["a", "b"] : List String).length = [dtId, dtId].length ∧
    tableInit (fun _ _ => []) (.seqInput [.raw [.vint 7], .raw [.vint 1, .vstr "x"]])
      (some (["a", "b"].map .strName)) (.someTypes [dtId, dtId]) .rnNone false =
      .ok ⟨["a", "b"], [dtId, dtId],
        [⟨[.vint 7, .vnull], ["a", "b"]⟩, ⟨[.vint 1, .vstr "x"], ["a", "b"]⟩], none⟩ := by
  refine ⟨by decide, by decide, rfl, ?_⟩
  have h := casting_stage_spec (fun _ _ => []) ["a", "b"] (by decide) (by decide)
    [dtId, dtId] rfl [.raw [.vint 7], .raw [.vint 1, .vstr "x"]]
  simpa [firstLong, castedRow, RawRow.vals, dtId] using h

/-- C10: with no column names supplied and a non-empty row sequence,
the column count is the length of the first row and the names are the
letter placeholders for exactly that many columns; consequently the
first row is never the shape-error offender, any later longer row
aborts construction naming its position, and shorter rows are
null-padded (visible in `castedRow`). -/
theorem placeholder_names_from_first_row
    (infer : List RawRow → List String → List DType)
    (ctypes : List DType) (rr0 : RawRow) (rest : List RawRow)
    (hty : ctypes.length = rr0.vals.length) :
    ((List.range rr0.vals.length).map letterName).length = rr0.vals.length ∧
    (∀ p, firstLong rr0.vals.length 0 (rr0 :: rest) ≠ some (0, p)) ∧
    tableInit infer (.seqInput (rr0 :: rest)) none (.someTypes ctypes) .rnNone false =
      match firstLong rr0.vals.length 0 (rr0 :: rest) with
      | some (j, len) => .error (.rowTooLong j len rr0.vals.length)
      | none => .ok ⟨(List.range rr0.vals.length).map letterName, ctypes,
          (rr0 :: rest).map
            (castedRow ((List.range rr0.vals.length).map letterName) ctypes), none⟩ := by
  have hlen : ((List.range rr0.vals.length).map letterName).length = rr0.vals.length := by
    simp
  refine ⟨hlen, ?_, ?_⟩
  · intro p
    simp only [firstLong, gt_iff_lt, Nat.lt_irrefl, if_false, ite_false]
    intro hcontra
    have := firstLong_ge rr0.vals.length 1 rest 0 p hcontra
    omega
  · have h1 : resolveColumnNames none (rr0 :: rest) =
        .ok ((List.range rr0.vals.length).map letterName) := by
      simp [resolveColumnNames]
    simp only [tableInit, h1, exceptBind_ok, hlen, hty, ite_true]
    simp only [hlen, hty, ne_eq, not_true_eq_false, if_false, ite_false,
      Bool.false_eq_true, exceptBind_ok, castRows_spec]
    cases h2 : firstLong rr0.vals.length 0 (rr0 :: rest) with
    | some p =>
      obtain ⟨j, len⟩ := p
      rfl
    | none => rfl

/-- C10 witness: two raw rows with no names; the first row fixes two
letter-named columns, the shorter second row is padded. -/
theorem placeholder_names_from_first_row_witness :
    ([dtId, dtId] : List DType).length = (RawRow.raw [.vint 1, .vint 2]).vals.length ∧
    tableInit (fun _ _ => []) (.seqInput [.raw [.vint 1, .vint 2], .raw [.vint 3]])
      none (.someTypes [dtId, dtId]) .rnNone false =
      .ok ⟨["A", "B"], [dtId, dtId],
        [⟨[.vint 1, .vint 2], ["A", "B"]⟩, ⟨[.vint 3, .vnull], ["A", "B"]⟩], none⟩ := by
  refine ⟨rfl, ?_⟩
  have h := (placeholder_names_from_first_row (fun _ _ => []) [dtId, dtId]
    (.raw [.vint 1, .vint 2]) [.raw [.vint 3]] rfl).2.2
  have hA : letterName 0 = "A" := rfl
  have hB : letterName 1 = "B" := rfl
  simpa [firstLong, castedRow, RawRow.vals, dtId, List.range_succ, hA, hB] using h

theorem mappedSeqCheck_ok_inv (n : Nat) (rn : Option (List Value))
    (h : mappedSeqCheck n rn = .ok ()) :
    ∀ ns, rn = some ns → ns.length = n := by
  intro ns hns
  subst hns
  unfold mappedSeqCheck at h
  by_cases hl : ns.length = n
  · exact hl
  · simp [hl] at h

theorem tableInit_tail_inv (names : List String) (types : List DType)
    (new_rows : List Row) (rn : RNArg) (t : Table)
    (h : (do
        let rnames ← computeRowNames rn new_rows
        let _ ← mappedSeqCheck new_rows.length rnames
        Except.ok (Table.mk names types new_rows rnames)) = .ok t) :
    ∀ ns, t.row_names = some ns → ns.length = t.rows.length := by
  cases hc : computeRowNames rn new_rows with
  | error e =>
    rw [hc, exceptBind_err] at h
    cases h
  | ok rnames =>
    rw [hc, exceptBind_ok] at h
    cases hm : mappedSeqCheck new_rows.length rnames with
    | error e =>
      rw [hm, exceptBind_err] at h
      cases h
    | ok u =>
      cases u
      rw [hm, exceptBind_ok] at h
      cases h
      exact mappedSeqCheck_ok_inv new_rows.length rnames hm

theorem tableInit_mid_inv (names : List String) (types : List DType)
    (rs : List RawRow) (rn : RNArg) (isf : Bool) (t : Table)
    (h : (if names.length ≠ types.length then Except.error Err.typesLengthMismatch
        else do
          let new_rows ← if isf then Except.ok (rs.map RawRow.asRow)
            else castRows names types 0 rs
          let rnames ← computeRowNames rn new_rows
          let _ ← mappedSeqCheck new_rows.length rnames
          Except.ok (Table.mk names types new_rows rnames)) = .ok t) :
    ∀ ns, t.row_names = some ns → ns.length = t.rows.length := by
  by_cases hL : names.length = types.length
  · rw [if_neg (by simpa using hL)] at h
    cases isf with
    | true =>
      rw [if_pos rfl, exceptBind_ok] at h
      exact tableInit_tail_inv names types (rs.map RawRow.asRow) rn t h
    | false =>
      rw [if_neg (by simp)] at h
      cases hr : castRows names types 0 rs with
      | error e =>
        rw [hr, exceptBind_err] at h
        cases h
      | ok new_rows =>
        rw [hr, exceptBind_ok] at h
        exact tableInit_tail_inv names types new_rows rn t h
  · rw [if_pos (by simpa using hL)] at h
    cases h

theorem tableInit_ok_rowNames_parallel (infer : List RawRow → List String → List DType)
    (ri : RowsInput) (cn : Option (List NameArg)) (ta : TypesArg) (rn : RNArg)
    (isf : Bool) (t : Table) (h : tableInit infer ri cn ta rn isf = .ok t) :
    ∀ ns, t.row_names = some ns → ns.length = t.rows.length := by
  cases ri with
  | strInput s => simp [tableInit] at h
  | seqInput rs =>
    unfold tableInit at h
    dsimp only at h
    cases hn : resolveColumnNames cn rs with
    | error e =>
      rw [hn, exceptBind_err] at h
      cases h
    | ok names =>
      rw [hn, exceptBind_ok] at h
      cases ta with
      | noTypes => exact tableInit_mid_inv names (infer rs names) rs rn isf t h
      | someTypes ts => exact tableInit_mid_inv names ts rs rn isf t h

theorem tableInit_rnSeq_mismatch (infer : List RawRow → List String → List DType)
    (cnames : List String) (ctypes : List DType) (rrs : List RawRow)
    (rns : List Value) (hne : cnames ≠ []) (hnd : cnames.Nodup)
    (hty : cnames.length = ctypes.length)
    (hfit : firstLong cnames.length 0 rrs = none)
    (hrne : rns ≠ []) (hint : ∀ v ∈ rns, v.isInt = false)
    (hmis : rns.length ≠ rrs.length) :
    tableInit infer (.seqInput rrs) (some (cnames.map .strName))
      (.someTypes ctypes) (.rnSeq rns) false = .error .rowNamesLengthMismatch := by
  obtain ⟨c, cs, rfl⟩ : ∃ c cs, cnames = c :: cs := by
    cases cnames with
    | nil => exact absurd rfl hne
    | cons c cs => exact ⟨c, cs, rfl⟩
  have h1 : resolveColumnNames (some ((c :: cs).map .strName)) rrs = .ok (c :: cs) := by
    simpa using resolveNamesLoop_id (c :: cs) [] 0 (by simpa using hnd)
  have hcast : castRows (c :: cs) ctypes 0 rrs =
      .ok (rrs.map (castedRow (c :: cs) ctypes)) := by
    rw [castRows_spec, hfit]
  have hrne' : rns.isEmpty = false := by
    cases rns with
    | nil => exact absurd rfl hrne
    | cons v vs => rfl
  have hints : rns.any Value.isInt = false := by
    simp only [List.any_eq_false]
    intro v hv
    simpa using hint v hv
  have hcn : computeRowNames (.rnSeq rns) (rrs.map (castedRow (c :: cs) ctypes)) =
      .ok (some rns) := by
    simp only [computeRowNames, RNArg.truthy, hrne', Bool.not_false, if_true,
      ite_true, exceptBind_ok]
    simp only [hints, Bool.false_eq_true, if_false, ite_false]
  have hm : mappedSeqCheck (rrs.map (castedRow (c :: cs) ctypes)).length (some rns) =
      .error .rowNamesLengthMismatch := by
    have hthis : rns.length ≠ (rrs.map (castedRow (c :: cs) ctypes)).length := by
      simpa using hmis
    simp only [mappedSeqCheck, hthis, if_false, ite_false]
  simp only [tableInit, h1, exceptBind_ok, hty, ite_true]
  simp only [hty, ne_eq, not_true_eq_false, if_false, ite_false,
    Bool.false_eq_true, exceptBind_ok, hcast, hcn, hm, exceptBind_err]

/-- C5: constructing a table from an explicit row-name sequence whose
length differs from the row count fails with the shape-mismatch error
(second conjunct; the validation lives in the keyed sequence, modelled
from the spec in `mappedSeqCheck`); equivalently, every successfully
constructed table that has row names has exactly one name per row
(first conjunct, over every argument combination of the
constructor). -/
theorem row_names_parallel_rows :
    (∀ (infer : List RawRow → List String → List DType) ri cn ta rn isf t,
      tableInit infer ri cn ta rn isf = .ok t →
      ∀ ns, t.row_names = some ns → ns.length = t.rows.length) ∧
    (∀ (infer : List RawRow → List String → List DType) cnames ctypes rrs rns,
      cnames ≠ [] → cnames.Nodup → cnames.length = ctypes.length →
      firstLong cnames.length 0 rrs = none → rns ≠ [] →
      (∀ v ∈ rns, v.isInt = false) → rns.length ≠ rrs.length →
      tableInit infer (.seqInput rrs) (some (cnames.map .strName))
        (.someTypes ctypes) (.rnSeq rns) false = .error .rowNamesLengthMismatch) :=
  ⟨fun infer ri cn ta rn isf t h => tableInit_ok_rowNames_parallel infer ri cn ta rn isf t h,
   fun infer cnames ctypes rrs rns h1 h2 h3 h4 h5 h6 h7 =>
     tableInit_rnSeq_mismatch infer cnames ctypes rrs rns h1 h2 h3 h4 h5 h6 h7⟩

/-- C5 witness: a one-row table rejects a two-name sequence with the
shape error, and a successful construction carrying one row name indeed
has as many names as rows. -/
theorem row_names_parallel_rows_witness :
    tableInit (fun _ _ => []) (.seqInput [.raw [.vint 1]]) (some [.strName "a"])
      (.someTypes [dtId]) (.rnSeq [.vstr "x", .vstr "y"]) false =
      .error .rowNamesLengthMismatch ∧
    ([Value.vstr "x"] : List Value).length =
      (Table.mk ["a"] [dtId] [⟨[.vint 1], ["a"]⟩] (some [.vstr "x"])).rows.length := by
  constructor
  · exact row_names_parallel_rows.2 (fun _ _ => []) ["a"] [dtId] [.raw [.vint 1]]
      [.vstr "x", .vstr "y"] (by decide) (by decide) rfl (by decide) (by decide)
      (by decide) (by decide)
  · exact row_names_parallel_rows.1 (fun _ _ => []) (.seqInput [.raw [.vint 1]])
      (some [.strName "a"]) (.someTypes [dtId]) (.rnSeq [.vstr "x"]) false
      (Table.mk ["a"] [dtId] [⟨[.vint 1], ["a"]⟩] (some [.vstr "x"]))
      (by rfl) [.vstr "x"] rfl

theorem idxOfName_get (names : List String) (hnd : names.Nodup) (i : Nat)
    (n : String) (h : names.get? i = some n) : idxOfName names n = some i := by
  induction names generalizing i with
  | nil => simp at h
  | cons m ms ih =>
    cases i with
    | zero =>
      have hm : m = n := by simpa using h
      simp [idxOfName, hm]
    | succ j =>
      have hj : ms.get? j = some n := by simpa using h
      have hmem : n ∈ ms := List.get?_mem hj
      have hne : m ≠ n := by
        intro hcontra
        subst hcontra
        exact (List.nodup_cons.mp hnd).1 hmem
      simp [idxOfName, hne, ih (List.nodup_cons.mp hnd).2 j hj]

theorem exMap_eq_ok_of_get (f : α → Except Err β) (l : List α) (out : List β)
    (hlen : l.length = out.length)
    (h : ∀ i a b, l.get? i = some a → out.get? i = some b → f a = .ok b) :
    exMap f l = .ok out := by
  induction l generalizing out with
  | nil =>
    cases out with
    | nil => rfl
    | cons b bs => simp at hlen
  | cons a as ih =>
    cases out with
    | nil => simp at hlen
    | cons b bs =>
      have h0 : f a = .ok b := h 0 a b rfl rfl
      have hrest : exMap f as = .ok bs :=
        ih bs (by simpa using hlen) (fun i x y hx hy => h (i + 1) x y (by simpa using hx)
          (by simpa using hy))
      simp [exMap, h0, hrest, exceptBind_ok]

/-- C8: projecting a well-formed table onto all of its column names in
their original order reproduces the table exactly: same column names,
same column types (looked up per key) and the very same rows, hence the
same row values. -/
theorem select_all_columns_roundtrip (t : Table) (hwf : WF t) :
    t.select (.many t.column_names) = .ok t := by
  have hnd := hwf.nodup
  have hty := hwf.typesLen
  have hrowsOK := hwf.rowsOK
  have hrnOK := hwf.rowNamesOK
  obtain ⟨cn, ct, rws, rns⟩ := t
  simp only at hnd hty hrowsOK hrnOK
  have htypes : exMap (fun n => match Table.columnTypeOf ⟨cn, ct, rws, rns⟩ n with
      | some d => Except.ok d
      | none => Except.error (Err.keyError n)) cn = .ok ct := by
    apply exMap_eq_ok_of_get _ _ _ hty
    intro i n d hn hd
    have hidx : idxOfName cn n = some i := idxOfName_get _ hnd i n hn
    rw [List.get?_eq_getElem?] at hd
    simp [Table.columnTypeOf, hidx, hd]
  have hvals : ∀ r ∈ rws, exMap (fun n => match r.get n with
      | some v => Except.ok v
      | none => Except.error (Err.keyError n)) cn = .ok r.values := by
    intro r hr
    obtain ⟨hrn, hrl⟩ := hrowsOK r hr
    apply exMap_eq_ok_of_get _ _ _ (by rw [← hrl])
    intro i n v hn hv
    have hidx : idxOfName r.names n = some i := by
      rw [hrn]
      exact idxOfName_get _ hnd i n hn
    rw [List.get?_eq_getElem?] at hv
    simp [Row.get, hidx, hv]
  have hrows : exMap (fun r => do
      let vs ← exMap (fun n => match r.get n with
        | some v => Except.ok v
        | none => Except.error (Err.keyError n)) cn
      Except.ok (⟨vs, cn⟩ : Row)) rws = .ok rws := by
    apply exMap_eq_ok_of_get _ _ _ rfl
    intro i a b ha hb
    have hab : a = b := by
      rw [ha] at hb
      exact Option.some_inj.mp hb
    subst hab
    have hmem : a ∈ rws := List.get?_mem ha
    obtain ⟨hrn, -⟩ := hrowsOK a hmem
    have heq : (⟨a.values, cn⟩ : Row) = a := by
      cases a with
      | mk vls nms =>
        simp only at hrn
        rw [hrn]
    simp only [hvals a hmem, exceptBind_ok, heq]
  have hfork : Table.fork ⟨cn, ct, rws, rns⟩ rws (some cn) (some ct) none =
      .ok ⟨cn, ct, rws, normRN rns⟩ := by
    unfold Table.fork
    exact tableInitFork_ok _ cn hnd ct hty rws
      (fun r hr => (hrowsOK r hr).2) rns
      (fun ns hns _ => by
        obtain ⟨h1, -, h3⟩ := hrnOK ns hns
        exact ⟨h1, h3⟩)
  have hnorm : normRN rns = rns := by
    cases hrn : rns with
    | none => rfl
    | some ns =>
      obtain ⟨-, h2, -⟩ := hrnOK ns hrn
      simp only [normRN]
      rw [if_neg (by simpa using h2)]
  unfold Table.select
  simp only [KeyArg.toList, htypes, exceptBind_ok, hrows, hfork, hnorm]

/-- C8 witness: a concrete two-column table round-trips through
`select` of all its column names. -/
theorem select_all_columns_roundtrip_witness :
    WF (Table.mk ["id", "name"] [dtId, dtId]
      [⟨[.vint 1, .vstr "a"], ["id", "name"]⟩, ⟨[.vint 2, .vstr "b"], ["id", "name"]⟩]
      (some [.vstr "a", .vstr "b"])) ∧
    (Table.mk ["id", "name"] [dtId, dtId]
      [⟨[.vint 1, .vstr "a"], ["id", "name"]⟩, ⟨[.vint 2, .vstr "b"], ["id", "name"]⟩]
      (some [.vstr "a", .vstr "b"])).select (.many ["id", "name"]) =
      .ok (Table.mk ["id", "name"] [dtId, dtId]
        [⟨[.vint 1, .vstr "a"], ["id", "name"]⟩, ⟨[.vint 2, .vstr "b"], ["id", "name"]⟩]
        (some [.vstr "a", .vstr "b"])) := by
  refine ⟨by decide, ?_⟩
  exact select_all_columns_roundtrip _ (by decide)

/-- A table with two value-equal rows, used to exercise `distinct`. -/
def tDup : Table :=
  ⟨["a"], [dtId], [⟨[.vint 1], ["a"]⟩, ⟨[.vint 1], ["a"]⟩], none⟩

/-- C4 (code bug evaluated): `distinct` with a sequence key builds
`k = (row[j] for j in key)` — a generator object compared by identity,
so no row is ever a duplicate and both value-equal rows survive; the
same table deduplicates correctly under a single-name key and under the
whole-row key (value equality, as the claim demands). -/
theorem distinct_seq_key_keeps_duplicates :
    (Table.distinct tDup (.dSeq ["a"])).map Table.rows =
      .ok [⟨[.vint 1], ["a"]⟩, ⟨[.vint 1], ["a"]⟩] ∧
    (Table.distinct tDup (.dStr "a")).map Table.rows =
      .ok [⟨[.vint 1], ["a"]⟩] ∧
    (Table.distinct tDup .dNone).map Table.rows =
      .ok [⟨[.vint 1], ["a"]⟩] := by
  refine ⟨?_, ?_, ?_⟩ <;> rfl

theorem pySlice_isSome_of_isSome (l : List α) (l' : List β) (a b c : Option Int)
    (h : (pySlice l a b c).isSome) : (pySlice l' a b c).isSome := by
  unfold pySlice at h ⊢
  by_cases h0 : c.getD 1 = 0
  · simp [h0] at h
  · simp [h0]

theorem pySlice_mem (l : List α) (a b c : Option Int) (r : List α)
    (h : pySlice l a b c = some r) : ∀ x ∈ r, x ∈ l := by
  unfold pySlice at h
  by_cases h0 : c.getD 1 = 0
  · simp [h0] at h
  · simp only [h0, if_false, ite_false, Option.some_inj] at h
    intro x hx
    rw [← h] at hx
    obtain ⟨k, -, hget⟩ := List.mem_filterMap.mp hx
    exact List.get?_mem hget

theorem filterMapGet_length_congr (l : List α) (l' : List β)
    (hl : l.length = l'.length) (f : Nat → Nat) (ks : List Nat) :
    (ks.filterMap (fun k => l.get? (f k))).length =
      (ks.filterMap (fun k => l'.get? (f k))).length := by
  induction ks with
  | nil => rfl
  | cons k ks ih =>
    rw [List.filterMap_cons, List.filterMap_cons]
    cases hk : l.get? (f k) with
    | none =>
      have hk' : l'.get? (f k) = none := by
        rw [List.get?_eq_none] at hk ⊢
        omega
      rw [hk']
      exact ih
    | some x =>
      have hlt : f k < l.length := by
        obtain ⟨hh, -⟩ := List.get?_eq_some.mp hk
        exact hh
      obtain ⟨y, hy⟩ : ∃ y, l'.get? (f k) = some y := by
        cases hy : l'.get? (f k) with
        | none =>
          rw [List.get?_eq_none] at hy
          omega
        | some y => exact ⟨y, rfl⟩
      rw [hy]
      simpa using ih

theorem pySlice_length_congr (l : List α) (l' : List β) (hl : l.length = l'.length)
    (a b c : Option Int) (r : List α) (r' : List β)
    (h : pySlice l a b c = some r) (h' : pySlice l' a b c = some r') :
    r.length = r'.length := by
  unfold pySlice at h h'
  by_cases h0 : c.getD 1 = 0
  · simp [h0] at h
  · simp only [h0, if_false, ite_false, Option.some_inj] at h h'
    rw [← h, ← h', hl]
    exact filterMapGet_length_congr l l' hl _ _

/-- The generic row slice `rows[s]`, with a zero step raising the
`ValueError`. -/
def pySliceE (l : List Row) (a b c : Option Int) : Except Err (List Row) :=
  match pySlice l a b c with
  | none => .error .sliceStepZero
  | some rs => .ok rs

/-- A three-row named table used to exercise `limit`. -/
def tSlice : Table :=
  ⟨["a"], [dtId],
    [⟨[.vint 1], ["a"]⟩, ⟨[.vint 2], ["a"]⟩, ⟨[.vint 3], ["a"]⟩],
    some [.vstr "x", .vstr "y", .vstr "z"]⟩

/-- C2 counterexample: the claim says `limit(a, b, c)` equals the
generic slice `rows[a:b:c]` including when `b` is 0 — but
`limit(2, 0, None)` takes the falsy branch of `if stop or step:` and
returns `rows[:2]` (the first two rows), while `rows[2:0:None]` is
empty. -/
theorem limit_slice_parity_cex :
    ¬((tSlice.limit (some 2) (some 0) none).map Table.rows =
      pySliceE tSlice.rows (some 2) (some 0) none) := by
  have h1 : (tSlice.limit (some 2) (some 0) none).map Table.rows =
      .ok [⟨[.vint 1], ["a"]⟩, ⟨[.vint 2], ["a"]⟩] := rfl
  have h2 : pySliceE tSlice.rows (some 2) (some 0) none = .ok [] := rfl
  rw [h1, h2]
  simp

/-- C2 amended: `limit(a, b, c)` applies the generic Python slice
selected by truthiness — `rows[a:b:c]` when `stop` or `step` is truthy
(non-`None` and non-zero), and `rows[:a]` otherwise (the single
argument is the stop bound) — and the row names, when present, receive
exactly the same slice (an empty sliced name sequence is stored as "no
row names").  Parity with `rows[a:b:c]` as literally claimed fails when
`b` or `c` is falsy, per the counterexample. -/
theorem limit_truthiness_slice (t : Table) (hwf : WF t) (a b c : Option Int) :
    (t.limit a b c).map Table.rows =
      pySliceE t.rows (limitSliceArgs a b c).1 (limitSliceArgs a b c).2.1
        (limitSliceArgs a b c).2.2 ∧
    (∀ tb, t.limit a b c = .ok tb → ∀ ns, t.row_names = some ns →
      ∃ ns', pySlice ns (limitSliceArgs a b c).1 (limitSliceArgs a b c).2.1
          (limitSliceArgs a b c).2.2 = some ns' ∧
        tb.row_names = normRN (some ns')) := by
  have hnd := hwf.nodup
  have hty := hwf.typesLen
  cases hrows : pySlice t.rows (limitSliceArgs a b c).1 (limitSliceArgs a b c).2.1
      (limitSliceArgs a b c).2.2 with
  | none =>
    have hlim : t.limit a b c = .error .sliceStepZero := by
      unfold Table.limit
      simp only [hrows, exceptBind_err]
    rw [hlim]
    constructor
    · simp only [Except.map, pySliceE, hrows]
    · intro tb htb
      simp at htb
  | some rs =>
    have hrsmem : ∀ x ∈ rs, x ∈ t.rows := pySlice_mem _ _ _ _ _ hrows
    have hrowsLen : ∀ r ∈ rs, r.values.length = t.column_names.length :=
      fun r hr => (hwf.rowsOK r (hrsmem r hr)).2
    cases hrn : t.row_names with
    | none =>
      have hlim : t.limit a b c = .ok ⟨t.column_names, t.column_types, rs, none⟩ := by
        unfold Table.limit
        simp only [hrows, exceptBind_ok, hrn]
        have hf := fork_ok t hnd hty rs hrowsLen none
          (fun ms hms => absurd hms (by simp [rnDefault, hrn]))
        simp only [rnDefault, hrn, normRN] at hf
        exact hf
      rw [hlim]
      constructor
      · simp only [Except.map, pySliceE, hrows]
      · intro tb htb ms hms
        exact Option.noConfusion hms
    | some ns =>
      have hsome : (pySlice ns (limitSliceArgs a b c).1 (limitSliceArgs a b c).2.1
          (limitSliceArgs a b c).2.2).isSome :=
        pySlice_isSome_of_isSome t.rows ns _ _ _ (by rw [hrows]; rfl)
      obtain ⟨ns', hns'⟩ := Option.isSome_iff_exists.mp hsome
      obtain ⟨hlenEq, -, hnoInt⟩ := hwf.rowNamesOK ns hrn
      have hns'mem : ∀ v ∈ ns', v ∈ ns := pySlice_mem _ _ _ _ _ hns'
      have hns'len : ns'.length = rs.length :=
        pySlice_length_congr ns t.rows (by omega) _ _ _ ns' rs hns' hrows
      have hlim : t.limit a b c =
          .ok ⟨t.column_names, t.column_types, rs, normRN (some ns')⟩ := by
        unfold Table.limit
        simp only [hrows, exceptBind_ok, hrn, hns', Option.map_some, Option.getD_some]
        have hf := fork_ok t hnd hty rs hrowsLen (some ns')
          (fun ms hms hme => by
            simp only [rnDefault, Option.some_inj] at hms
            subst hms
            exact ⟨hns'len, fun v hv => hnoInt v (hns'mem v hv)⟩)
        simp only [rnDefault] at hf
        exact hf
      rw [hlim]
      constructor
      · simp only [Except.map, pySliceE, hrows]
      · intro tb htb ms hms
        cases hms
        refine ⟨ns', hns', ?_⟩
        cases htb
        rfl

/-- C2 witness for the amended claim: on the three-row named table,
`limit(1, 3)` takes the truthy branch and equals `rows[1:3]`, slicing
the row names identically. -/
theorem limit_truthiness_slice_witness :
    WF tSlice ∧
    ((tSlice.limit (some 1) (some 3) none).map Table.rows =
      pySliceE tSlice.rows (limitSliceArgs (some 1) (some 3) none).1
        (limitSliceArgs (some 1) (some 3) none).2.1
        (limitSliceArgs (some 1) (some 3) none).2.2 ∧
    (∀ tb, tSlice.limit (some 1) (some 3) none = .ok tb →
      ∀ ns, tSlice.row_names = some ns →
      ∃ ns', pySlice ns (limitSliceArgs (some 1) (some 3) none).1
          (limitSliceArgs (some 1) (some 3) none).2.1
          (limitSliceArgs (some 1) (some 3) none).2.2 = some ns' ∧
        tb.row_names = normRN (some ns'))) :=
  ⟨by decide, limit_truthiness_slice tSlice (by decide) (some 1) (some 3) none⟩

/-- A two-column table whose second column holds a null, used to
exercise the null handling of `order_by`. -/
def tNull : Table :=
  ⟨["a", "b"], [dtId, dtId],
    [⟨[.vint 1, .vint 2], ["a", "b"]⟩, ⟨[.vint 1, .vnull], ["a", "b"]⟩], none⟩

/-- C3 (code bug evaluated): `sort_key` replaces only a key that is
`None` itself by the `NullOrder` sentinel; a null inside a composite
key tuple is passed through raw, so comparing `(1, 2)` with `(1, None)`
is a `TypeError` and `order_by(['a', 'b'])` fails in both directions
instead of sorting the null first (respectively last).  A single-column
key (`order_by('b')`) does route the null through the sentinel, which
sorts first ascending and last descending — exactly what the claim
expects of composite keys too. -/
theorem order_by_composite_null_not_sentinel :
    tNull.order_by (.oSeq ["a", "b"]) false = .error .cmpTypeError ∧
    tNull.order_by (.oSeq ["a", "b"]) true = .error .cmpTypeError ∧
    (tNull.order_by (.oStr "b") false).map Table.rows =
      .ok [⟨[.vint 1, .vnull], ["a", "b"]⟩, ⟨[.vint 1, .vint 2], ["a", "b"]⟩] ∧
    (tNull.order_by (.oStr "b") true).map Table.rows =
      .ok [⟨[.vint 1, .vint 2], ["a", "b"]⟩, ⟨[.vint 1, .vnull], ["a", "b"]⟩] := by
  refine ⟨rfl, rfl, by decide, by decide⟩

theorem insertLe_perm (le : α → α → Bool) (a : α) (l : List α) :
    List.Perm (insertLe le a l) (a :: l) := by
  induction l with
  | nil => rfl
  | cons b bs ih =>
    by_cases h : le a b
    · simp [insertLe, h]
    · simp only [insertLe, h, if_false, Bool.false_eq_true, ite_false]
      exact (ih.cons b).trans (List.Perm.swap a b bs)

theorem insertionSort_perm (le : α → α → Bool) (l : List α) :
    List.Perm (insertionSort le l) l := by
  induction l with
  | nil => rfl
  | cons a as ih =>
    exact (insertLe_perm le a (insertionSort le as)).trans (ih.cons a)

theorem mem_insertLe (le : α → α → Bool) (a x : α) (l : List α) :
    x ∈ insertLe le a l ↔ x = a ∨ x ∈ l := by
  have hp := insertLe_perm le a l
  constructor
  · intro h
    simpa using hp.subset h
  · intro h
    apply hp.symm.subset
    simpa using h

theorem insertLe_pairwise (le : α → α → Bool)
    (htrans : ∀ a b c, le a b = true → le b c = true → le a c = true)
    (htot : ∀ a b, le a b = true ∨ le b a = true)
    (a : α) (l : List α) (h : l.Pairwise (fun x y => le x y = true)) :
    (insertLe le a l).Pairwise (fun x y => le x y = true) := by
  induction l with
  | nil => simp [insertLe]
  | cons b bs ih =>
    rcases List.pairwise_cons.mp h with ⟨hb, hbs⟩
    by_cases hab : le a b
    · simp only [insertLe, hab, if_true, ite_true]
      refine List.pairwise_cons.mpr ⟨?_, h⟩
      intro x hx
      rcases List.mem_cons.mp hx with rfl | hx'
      · exact hab
      · exact htrans a b x hab (hb x hx')
    · have hba : le b a = true := by
        rcases htot a b with h1 | h1
        · exact absurd h1 hab
        · exact h1
      simp only [insertLe, hab, if_false, Bool.false_eq_true, ite_false]
      refine List.pairwise_cons.mpr ⟨?_, ih hbs⟩
      intro x hx
      rcases (mem_insertLe le a x bs).mp hx with rfl | hx'
      · exact hba
      · exact hb x hx'

theorem insertionSort_pairwise (le : α → α → Bool)
    (htrans : ∀ a b c, le a b = true → le b c = true → le a c = true)
    (htot : ∀ a b, le a b = true ∨ le b a = true) (l : List α) :
    (insertionSort le l).Pairwise (fun x y => le x y = true) := by
  induction l with
  | nil => simp [insertionSort]
  | cons a as ih => exact insertLe_pairwise le htrans htot a _ ih

theorem enumFromL_map_snd (i : Nat) (l : List α) :
    (enumFromL i l).map (·.2) = l := by
  induction l generalizing i with
  | nil => rfl
  | cons a as ih => simp [enumFromL, ih]

theorem enumL_map_snd (l : List α) : (enumL l).map (·.2) = l :=
  enumFromL_map_snd 0 l

theorem enumFromL_map_fst (i : Nat) (l : List α) :
    (enumFromL i l).map (·.1) = List.range' i l.length := by
  induction l generalizing i with
  | nil => rfl
  | cons a as ih => simp [enumFromL, ih, List.range']

theorem mem_enumFromL (i : Nat) (l : List α) (p : Nat × α)
    (h : p ∈ enumFromL i l) : i ≤ p.1 ∧ l.get? (p.1 - i) = some p.2 := by
  induction l generalizing i with
  | nil => simp [enumFromL] at h
  | cons a as ih =>
    rcases List.mem_cons.mp h with rfl | h'
    · simp
    · obtain ⟨h1, h2⟩ := ih (i + 1) h'
      refine ⟨by omega, ?_⟩
      have : p.1 - i = (p.1 - (i + 1)) + 1 := by omega
      rw [this]
      simpa using h2

theorem mem_enumL (l : List α) (p : Nat × α) (h : p ∈ enumL l) :
    l.get? p.1 = some p.2 := by
  have := (mem_enumFromL 0 l p h).2
  simpa using this

theorem enumL_fst_inj (l : List α) (p q : Nat × α) (hp : p ∈ enumL l)
    (hq : q ∈ enumL l) (h : p.1 = q.1) : p = q := by
  have h1 := mem_enumL l p hp
  have h2 := mem_enumL l q hq
  rw [h] at h1
  rw [h1] at h2
  obtain ⟨i, a⟩ := p
  obtain ⟨j, b⟩ := q
  simp only at h
  subst h
  simpa using Option.some_inj.mp h2

theorem encV_inj (a b : Value) (h : encV a = encV b) : a = b := by
  cases a <;> cases b <;> simp_all [encV]

theorem encSK_inj (a b : SortKey) (h : encSK a = encSK b) : a = b := by
  cases a <;> cases b <;> simp_all [encSK]
  case val.val v w => exact encV_inj v w h
  case tup.tup as bs =>
    exact List.map_injective_iff.mpr (fun x y hxy => encV_inj x y hxy) h

theorem entLE_refl (rev : Bool) (p : Ent) : entLE rev p p = true := by
  unfold entLE
  rw [if_pos rfl, decide_eq_true_eq]

theorem entLE_total (rev : Bool) (p q : Ent) :
    entLE rev p q = true ∨ entLE rev q p = true := by
  unfold entLE
  by_cases henc : encSK p.2.1 = encSK q.2.1
  · rw [if_pos henc, if_pos henc.symm, decide_eq_true_eq, decide_eq_true_eq]
    exact Nat.le_total p.1 q.1
  · have hne : ¬(encSK q.2.1 = encSK p.2.1) := fun hcontra => henc hcontra.symm
    rw [if_neg henc, if_neg hne]
    rcases lt_or_gt_of_ne henc with hlt | hgt
    · cases rev with
      | false =>
        rw [if_neg (by simp), if_neg (by simp), decide_eq_true_eq, decide_eq_true_eq]
        exact Or.inl hlt
      | true =>
        rw [if_pos rfl, if_pos rfl, decide_eq_true_eq, decide_eq_true_eq]
        exact Or.inr hlt
    · cases rev with
      | false =>
        rw [if_neg (by simp), if_neg (by simp), decide_eq_true_eq, decide_eq_true_eq]
        exact Or.inr hgt
      | true =>
        rw [if_pos rfl, if_pos rfl, decide_eq_true_eq, decide_eq_true_eq]
        exact Or.inl hgt

theorem entLE_lt_of_ne (rev : Bool) (p q : Ent)
    (henc : ¬(encSK p.2.1 = encSK q.2.1)) (h : entLE rev p q = true) :
    if rev then encSK q.2.1 < encSK p.2.1 else encSK p.2.1 < encSK q.2.1 := by
  unfold entLE at h
  rw [if_neg henc] at h
  cases rev with
  | false =>
    rw [if_neg (by simp), decide_eq_true_eq] at h
    simpa using h
  | true =>
    rw [if_pos rfl, decide_eq_true_eq] at h
    simpa using h

theorem entLE_of_lt (rev : Bool) (p q : Ent)
    (h : if rev then encSK q.2.1 < encSK p.2.1 else encSK p.2.1 < encSK q.2.1) :
    entLE rev p q = true := by
  unfold entLE
  cases rev with
  | false =>
    simp only [if_false, Bool.false_eq_true, ite_false] at h
    rw [if_neg (ne_of_lt h), if_neg (by simp), decide_eq_true_eq]
    exact h
  | true =>
    simp only [if_true, ite_true] at h
    rw [if_neg (fun hc => absurd hc.symm (ne_of_lt h)), if_pos rfl, decide_eq_true_eq]
    exact h

theorem entLE_of_eq_le (rev : Bool) (p q : Ent)
    (henc : encSK p.2.1 = encSK q.2.1) (h : p.1 ≤ q.1) : entLE rev p q = true := by
  unfold entLE
  rw [if_pos henc, decide_eq_true_eq]
  exact h

theorem entLE_trans (rev : Bool) (p q r : Ent) (h1 : entLE rev p q = true)
    (h2 : entLE rev q r = true) : entLE rev p r = true := by
  by_cases hpq : encSK p.2.1 = encSK q.2.1 <;>
    by_cases hqr : encSK q.2.1 = encSK r.2.1
  · have hle1 : p.1 ≤ q.1 := by
      unfold entLE at h1
      rw [if_pos hpq, decide_eq_true_eq] at h1
      exact h1
    have hle2 : q.1 ≤ r.1 := by
      unfold entLE at h2
      rw [if_pos hqr, decide_eq_true_eq] at h2
      exact h2
    exact entLE_of_eq_le rev p r (hpq.trans hqr) (Nat.le_trans hle1 hle2)
  · have hlt := entLE_lt_of_ne rev q r hqr h2
    apply entLE_of_lt
    cases rev with
    | false =>
      simp only [if_false, Bool.false_eq_true, ite_false] at hlt ⊢
      rw [hpq]
      exact hlt
    | true =>
      simp only [if_true, ite_true] at hlt ⊢
      rw [hpq]
      exact hlt
  · have hlt := entLE_lt_of_ne rev p q hpq h1
    apply entLE_of_lt
    cases rev with
    | false =>
      simp only [if_false, Bool.false_eq_true, ite_false] at hlt ⊢
      rw [← hqr]
      exact hlt
    | true =>
      simp only [if_true, ite_true] at hlt ⊢
      rw [← hqr]
      exact hlt
  · have hlt1 := entLE_lt_of_ne rev p q hpq h1
    have hlt2 := entLE_lt_of_ne rev q r hqr h2
    apply entLE_of_lt
    cases rev with
    | false =>
      simp only [if_false, Bool.false_eq_true, ite_false] at hlt1 hlt2 ⊢
      exact lt_trans hlt1 hlt2
    | true =>
      simp only [if_true, ite_true] at hlt1 hlt2 ⊢
      exact lt_trans hlt2 hlt1

theorem entLE_antisymm (rev : Bool) (p q : Ent) (h1 : entLE rev p q = true)
    (h2 : entLE rev q p = true) : encSK p.2.1 = encSK q.2.1 ∧ p.1 = q.1 := by
  by_cases henc : encSK p.2.1 = encSK q.2.1
  · refine ⟨henc, ?_⟩
    have hle1 : p.1 ≤ q.1 := by
      unfold entLE at h1
      rw [if_pos henc, decide_eq_true_eq] at h1
      exact h1
    have hle2 : q.1 ≤ p.1 := by
      unfold entLE at h2
      rw [if_pos henc.symm, decide_eq_true_eq] at h2
      exact h2
    omega
  · have hne : ¬(encSK q.2.1 = encSK p.2.1) := fun hcontra => henc hcontra.symm
    have hlt1 := entLE_lt_of_ne rev p q henc h1
    have hlt2 := entLE_lt_of_ne rev q p hne h2
    exfalso
    cases rev with
    | false =>
      simp only [if_false, Bool.false_eq_true, ite_false] at hlt1 hlt2
      exact absurd (lt_trans hlt1 hlt2) (lt_irrefl _)
    | true =>
      simp only [if_true, ite_true] at hlt1 hlt2
      exact absurd (lt_trans hlt1 hlt2) (lt_irrefl _)

theorem computeKeys_ok (key : OKey) (kf : Row → SortKey) (pairs : List (Nat × Row))
    (hk : ∀ p ∈ pairs, sortKeyOf key p.2 = .ok (kf p.2)) :
    computeKeys key pairs = .ok (pairs.map (fun p => (p.1, kf p.2, p.2))) := by
  induction pairs with
  | nil => rfl
  | cons p ps ih =>
    obtain ⟨i, r⟩ := p
    have h0 : sortKeyOf key r = .ok (kf r) := hk (i, r) (List.mem_cons_self _ _)
    have h1 := ih (fun q hq => hk q (List.mem_cons_of_mem _ hq))
    simp [computeKeys, h0, h1, exceptBind_ok]

/-- The enumerated, key-annotated entries `order_by` sorts. -/
def keyedOf (t : Table) (kf : Row → SortKey) : List Ent :=
  (enumL t.rows).map (fun p => (p.1, kf p.2, p.2))

/-- The sorted entries of `order_by`. -/
def sortedOf (t : Table) (kf : Row → SortKey) (rev : Bool) : List Ent :=
  insertionSort (entLE rev) (keyedOf t kf)

theorem mem_keyedOf (t : Table) (kf : Row → SortKey) (e : Ent)
    (h : e ∈ keyedOf t kf) :
    t.rows.get? e.1 = some e.2.2 ∧ e.2.1 = kf e.2.2 := by
  obtain ⟨p, hp, rfl⟩ := List.mem_map.mp h
  exact ⟨mem_enumL t.rows p hp, rfl⟩

theorem keyedOf_fst_inj (t : Table) (kf : Row → SortKey) (e e' : Ent)
    (he : e ∈ keyedOf t kf) (he' : e' ∈ keyedOf t kf) (h : e.1 = e'.1) :
    e = e' := by
  obtain ⟨p, hp, rfl⟩ := List.mem_map.mp he
  obtain ⟨q, hq, rfl⟩ := List.mem_map.mp he'
  simp only at h
  have := enumL_fst_inj t.rows p q hp hq h
  rw [this]

theorem mem_sortedOf (t : Table) (kf : Row → SortKey) (rev : Bool) (e : Ent) :
    e ∈ sortedOf t kf rev ↔ e ∈ keyedOf t kf :=
  (insertionSort_perm (entLE rev) (keyedOf t kf)).mem_iff

theorem sortedOf_length (t : Table) (kf : Row → SortKey) (rev : Bool) :
    (sortedOf t kf rev).length = t.rows.length := by
  unfold sortedOf
  rw [(insertionSort_perm (entLE rev) (keyedOf t kf)).length_eq]
  unfold keyedOf
  rw [List.length_map]
  have := enumFromL_map_snd 0 t.rows
  calc (enumFromL 0 t.rows).length = ((enumFromL 0 t.rows).map (·.2)).length := by
        rw [List.length_map]
    _ = t.rows.length := by rw [this]

theorem getD_no_int (ns : List Value) (hint : ∀ v ∈ ns, v.isInt = false)
    (i : Nat) : (ns.getD i .vnull).isInt = false := by
  by_cases hlt : i < ns.length
  · have hmem : ns.getD i .vnull ∈ ns := by
      rw [List.getD_eq_getElem?_getD, List.getElem?_eq_getElem hlt]
      simp only [Option.getD_some]
      exact List.getElem_mem hlt
    exact hint _ hmem
  · rw [List.getD_eq_getElem?_getD]
    have : ns[i]? = none := List.getElem?_eq_none (by omega)
    rw [this]
    rfl

/-- What `order_by` returns on a well-formed table whose keys all
compute and compare: the stably sorted rows with identically permuted
row names. -/
theorem order_by_ok (t : Table) (hwf : WF t) (key : OKey) (kf : Row → SortKey)
    (hk : ∀ r ∈ t.rows, sortKeyOf key r = .ok (kf r))
    (hcomp : allComparable (t.rows.map kf) = true) (rev : Bool) :
    t.order_by key rev = .ok ⟨t.column_names, t.column_types,
      (sortedOf t kf rev).map (·.2.2),
      t.row_names.map (fun ns => (sortedOf t kf rev).map (fun p => ns.getD p.1 .vnull))⟩ := by
  have hnd := hwf.nodup
  have hty := hwf.typesLen
  by_cases hemp : t.rows.isEmpty
  · have hrows0 : t.rows = [] := by
      cases h : t.rows with
      | nil => rfl
      | cons r rs =>
        rw [h] at hemp
        simp at hemp
    have hrn0 : t.row_names = none := by
      cases h : t.row_names with
      | none => rfl
      | some ns =>
        obtain ⟨h1, h2, -⟩ := hwf.rowNamesOK ns h
        rw [hrows0] at h1
        simp at h1
        rw [h1] at h2
        simp at h2
    have hfork := fork_ok t hnd hty t.rows (fun r hr => (hwf.rowsOK r hr).2) none
      (fun ms hms => absurd hms (by simp [rnDefault, hrn0]))
    unfold Table.order_by
    rw [if_pos hemp, hfork]
    simp only [rnDefault, hrn0, normRN]
    have hsorted0 : sortedOf t kf rev = [] := by
      unfold sortedOf keyedOf
      rw [hrows0]
      rfl
    rw [hsorted0, hrows0]
    rfl
  · have hkeys : computeKeys key (enumL t.rows) = .ok (keyedOf t kf) := by
      apply computeKeys_ok
      intro p hp
      exact hk p.2 (List.get?_mem (mem_enumL t.rows p hp))
    have hkeysmap : (keyedOf t kf).map (·.2.1) = t.rows.map kf := by
      unfold keyedOf
      rw [List.map_map]
      have h1 : (enumL t.rows).map ((·.2.1) ∘ (fun p : Nat × Row => (p.1, kf p.2, p.2))) =
          (enumL t.rows).map (fun p => kf p.2) := rfl
      rw [h1]
      have h2 : (enumL t.rows).map (fun p => kf p.2) =
          ((enumL t.rows).map (·.2)).map kf := by
        rw [List.map_map]
        rfl
      rw [h2, enumL_map_snd]
    have hrowsmem : ∀ r ∈ (sortedOf t kf rev).map (·.2.2), r ∈ t.rows := by
      intro r hr
      obtain ⟨e, he, rfl⟩ := List.mem_map.mp hr
      have hek := (mem_sortedOf t kf rev e).mp he
      exact List.get?_mem (mem_keyedOf t kf e hek).1
    have hlen : ∀ r ∈ (sortedOf t kf rev).map (·.2.2),
        r.values.length = t.column_names.length :=
      fun r hr => (hwf.rowsOK r (hrowsmem r hr)).2
    have hslen : ((sortedOf t kf rev).map (·.2.2)).length = t.rows.length := by
      rw [List.length_map, sortedOf_length]
    have hsne : sortedOf t kf rev ≠ [] := by
      intro hcontra
      have := sortedOf_length t kf rev
      rw [hcontra] at this
      cases h : t.rows with
      | nil =>
        rw [h] at hemp
        simp at hemp
      | cons r rs =>
        rw [h] at this
        simp at this
    have hrnarg : ∀ ns, t.row_names = some ns →
        ∀ v ∈ (sortedOf t kf rev).map (fun p => ns.getD p.1 .vnull), v.isInt = false := by
      intro ns hns v hv
      obtain ⟨e, -, rfl⟩ := List.mem_map.mp hv
      obtain ⟨-, -, hint⟩ := hwf.rowNamesOK ns hns
      exact getD_no_int ns hint e.1
    unfold Table.order_by
    rw [if_neg (by simp [hemp]), hkeys, exceptBind_ok, hkeysmap]
    rw [if_pos hcomp]
    cases hrn : t.row_names with
    | none =>
      have hfork := fork_ok t hnd hty ((sortedOf t kf rev).map (·.2.2)) hlen none
        (fun ms hms => absurd hms (by simp [rnDefault, hrn]))
      simp only [rnDefault, hrn, normRN] at hfork
      exact hfork
    | some ns =>
      have hnslen : ((sortedOf t kf rev).map (fun p => ns.getD p.1 .vnull)).length =
          ((sortedOf t kf rev).map (·.2.2)).length := by
        rw [List.length_map, List.length_map]
      have hfork := fork_ok t hnd hty ((sortedOf t kf rev).map (·.2.2)) hlen
        (some ((sortedOf t kf rev).map (fun p => ns.getD p.1 .vnull)))
        (fun ms hms hme => by
          simp only [rnDefault, Option.some_inj] at hms
          subst hms
          exact ⟨hnslen, hrnarg ns hrn⟩)
      simp only [rnDefault] at hfork
      have hnrm : normRN (some ((sortedOf t kf rev).map (fun p => ns.getD p.1 .vnull))) =
          some ((sortedOf t kf rev).map (fun p => ns.getD p.1 .vnull)) := by
        simp only [normRN]
        rw [if_neg (by
          simp only [List.isEmpty_eq_true, List.map_eq_nil_iff]
          exact hsne)]
      refine hfork.trans ?_
      rw [hnrm]
      rfl

theorem entLE_le_of_eq (rev : Bool) (p q : Ent)
    (henc : encSK p.2.1 = encSK q.2.1) (h : entLE rev p q = true) : p.1 ≤ q.1 := by
  unfold entLE at h
  rw [if_pos henc, decide_eq_true_eq] at h
  exact h

theorem enumFromL_pairwise (i : Nat) (l : List α) :
    (enumFromL i l).Pairwise (fun p q => p.1 < q.1) := by
  induction l generalizing i with
  | nil => simp [enumFromL]
  | cons a as ih =>
    refine List.pairwise_cons.mpr ⟨?_, ih (i + 1)⟩
    intro q hq
    have := (mem_enumFromL (i + 1) as q hq).1
    simp only
    omega

theorem keyedOf_pairwise_fst (t : Table) (kf : Row → SortKey) :
    (keyedOf t kf).Pairwise (fun p q => p.1 < q.1) := by
  unfold keyedOf enumL
  rw [List.pairwise_map]
  exact enumFromL_pairwise 0 t.rows

theorem keyedOf_map_fst (t : Table) (kf : Row → SortKey) :
    (keyedOf t kf).map (·.1) = List.range t.rows.length := by
  unfold keyedOf enumL
  rw [List.map_map]
  have h1 : (enumFromL 0 t.rows).map ((·.1) ∘ (fun p : Nat × Row => (p.1, kf p.2, p.2))) =
      (enumFromL 0 t.rows).map (·.1) := rfl
  rw [h1, enumFromL_map_fst, List.range_eq_range']

theorem sortedOf_pairwise (t : Table) (kf : Row → SortKey) (rev : Bool) :
    (sortedOf t kf rev).Pairwise (fun x y => entLE rev x y = true) :=
  insertionSort_pairwise (entLE rev) (entLE_trans rev) (fun a b => by
    rcases entLE_total rev a b with h | h
    · exact Or.inl h
    · exact Or.inr h) (keyedOf t kf)

theorem sortedOf_perm (t : Table) (kf : Row → SortKey) (rev : Bool) :
    List.Perm (sortedOf t kf rev) (keyedOf t kf) :=
  insertionSort_perm (entLE rev) (keyedOf t kf)

theorem sortedOf_filter_key (t : Table) (kf : Row → SortKey) (rev : Bool)
    (k : SortKey) :
    (sortedOf t kf rev).filter (fun e => decide (e.2.1 = k)) =
      (keyedOf t kf).filter (fun e => decide (e.2.1 = k)) := by
  apply @List.Perm.eq_of_sorted Ent (fun p q : Ent => p.1 ≤ q.1) _ _
  · intro x y hx hy hxy hyx
    have hx1 := List.mem_filter.mp hx
    have hy1 := List.mem_filter.mp hy
    have hxk : x ∈ keyedOf t kf := (mem_sortedOf t kf rev x).mp hx1.1
    have hyk : y ∈ keyedOf t kf := hy1.1
    exact keyedOf_fst_inj t kf x y hxk hyk (Nat.le_antisymm hxy hyx)
  · have hpw : ((sortedOf t kf rev).filter (fun e => decide (e.2.1 = k))).Pairwise
        (fun x y => entLE rev x y = true) :=
      (sortedOf_pairwise t kf rev).sublist (List.filter_sublist _)
    refine hpw.imp_of_mem ?_
    intro x y hx hy hxy
    have hxk := of_decide_eq_true (List.mem_filter.mp hx).2
    have hyk := of_decide_eq_true (List.mem_filter.mp hy).2
    exact entLE_le_of_eq rev x y (by rw [hxk, hyk]) hxy
  · have hpw : ((keyedOf t kf).filter (fun e => decide (e.2.1 = k))).Pairwise
        (fun p q => p.1 < q.1) :=
      (keyedOf_pairwise_fst t kf).sublist (List.filter_sublist _)
    exact hpw.imp (fun h => Nat.le_of_lt h)
  · exact (sortedOf_perm t kf rev).filter _

theorem order_by_rows_filter (t : Table) (kf : Row → SortKey) (rev : Bool)
    (k : SortKey) :
    ((sortedOf t kf rev).map (·.2.2)).filter (fun r => decide (kf r = k)) =
      t.rows.filter (fun r => decide (kf r = k)) := by
  rw [List.filter_map]
  have hs1 : (sortedOf t kf rev).filter ((fun r => decide (kf r = k)) ∘ (·.2.2)) =
      (sortedOf t kf rev).filter (fun e => decide (e.2.1 = k)) := by
    apply List.filter_congr
    intro e he
    have hek := (mem_keyedOf t kf e ((mem_sortedOf t kf rev e).mp he)).2
    simp only [Function.comp_apply, ← hek]
  rw [hs1, sortedOf_filter_key]
  have hs2 : (keyedOf t kf).filter (fun e => decide (e.2.1 = k)) =
      (keyedOf t kf).filter ((fun r => decide (kf r = k)) ∘ (·.2.2)) := by
    apply List.filter_congr
    intro e he
    have hek := (mem_keyedOf t kf e he).2
    simp only [Function.comp_apply, ← hek]
  rw [hs2]
  unfold keyedOf
  rw [← List.filter_map]
  have hs3 : ((enumL t.rows).map (fun p : Nat × Row => (p.1, kf p.2, p.2))).map (·.2.2) =
      t.rows := by
    rw [List.map_map]
    have : (enumL t.rows).map ((·.2.2) ∘ (fun p : Nat × Row => (p.1, kf p.2, p.2))) =
        (enumL t.rows).map (·.2) := rfl
    rw [this, enumL_map_snd]
  rw [hs3]

theorem keyedOf_key_inj (t : Table) (kf : Row → SortKey)
    (hd : (t.rows.map kf).Pairwise (fun a b => a ≠ b)) :
    ∀ e e', e ∈ keyedOf t kf → e' ∈ keyedOf t kf → e.2.1 = e'.2.1 → e = e' := by
  intro e e' he he' hk
  obtain ⟨hg, hke⟩ := mem_keyedOf t kf e he
  obtain ⟨hg', hke'⟩ := mem_keyedOf t kf e' he'
  have hi : e.1 < t.rows.length := (List.get?_eq_some.mp hg).1
  have hi' : e'.1 < t.rows.length := (List.get?_eq_some.mp hg').1
  have hgetE : t.rows[e.1] = e.2.2 := by
    have := List.get?_eq_some.mp hg
    obtain ⟨hh, hv⟩ := this
    simpa using hv
  have hgetE' : t.rows[e'.1] = e'.2.2 := by
    obtain ⟨hh, hv⟩ := List.get?_eq_some.mp hg'
    simpa using hv
  have hdist := List.pairwise_iff_getElem.mp hd
  have hfst : e.1 = e'.1 := by
    by_contra hne
    have hkk : kf e.2.2 = kf e'.2.2 := by
      rw [← hke, ← hke']
      exact hk
    rcases Nat.lt_or_ge e.1 e'.1 with hlt | hge
    · have := hdist e.1 e'.1 (by simpa using hi) (by simpa using hi') hlt
      apply this
      simp only [List.getElem_map, hgetE, hgetE']
      exact hkk
    · have hlt' : e'.1 < e.1 := by omega
      have := hdist e'.1 e.1 (by simpa using hi') (by simpa using hi) hlt'
      apply this
      simp only [List.getElem_map, hgetE, hgetE']
      exact hkk.symm
  exact keyedOf_fst_inj t kf e e' he he' hfst

theorem sortedOf_rev_reverse (t : Table) (kf : Row → SortKey)
    (hd : (t.rows.map kf).Pairwise (fun a b => a ≠ b)) :
    sortedOf t kf true = (sortedOf t kf false).reverse := by
  have hinj := keyedOf_key_inj t kf hd
  apply @List.Perm.eq_of_sorted Ent (fun p q : Ent => entLE true p q = true) _ _
  · intro x y hx hy hxy hyx
    obtain ⟨henc, hidx⟩ := entLE_antisymm true x y hxy hyx
    have hxk : x ∈ keyedOf t kf := (mem_sortedOf t kf true x).mp hx
    have hyk : y ∈ keyedOf t kf := by
      have := List.mem_reverse.mp hy
      exact (mem_sortedOf t kf false y).mp this
    exact keyedOf_fst_inj t kf x y hxk hyk hidx
  · exact sortedOf_pairwise t kf true
  · rw [List.pairwise_reverse]
    refine (sortedOf_pairwise t kf false).imp_of_mem ?_
    intro x y hx hy hxy
    by_cases henc : encSK x.2.1 = encSK y.2.1
    · have hkey : x.2.1 = y.2.1 := encSK_inj _ _ henc
      have hxy' : x = y := hinj x y ((mem_sortedOf t kf false x).mp hx)
        ((mem_sortedOf t kf false y).mp hy) hkey
      rw [hxy']
      exact entLE_refl true y
    · have hlt := entLE_lt_of_ne false x y henc hxy
      simp only [if_false, Bool.false_eq_true, ite_false] at hlt
      apply entLE_of_lt true y x
      simpa using hlt
  · exact ((sortedOf_perm t kf true).trans (sortedOf_perm t kf false).symm).trans
      (List.reverse_perm _).symm

theorem sortedOf_rows_as_indices (t : Table) (kf : Row → SortKey) (rev : Bool) :
    (sortedOf t kf rev).map (·.2.2) =
      ((sortedOf t kf rev).map (·.1)).map (fun i => t.rows.getD i ⟨[], []⟩) := by
  rw [List.map_map]
  apply List.map_congr_left
  intro e he
  have hg := (mem_keyedOf t kf e ((mem_sortedOf t kf rev e).mp he)).1
  simp only [Function.comp_apply]
  rw [List.getD_eq_getElem?_getD, ← List.get?_eq_getElem?, hg]
  rfl

theorem sortedOf_fst_perm_range (t : Table) (kf : Row → SortKey) (rev : Bool) :
    List.Perm ((sortedOf t kf rev).map (·.1)) (List.range t.rows.length) := by
  have h := (sortedOf_perm t kf rev).map (·.1)
  rw [keyedOf_map_fst] at h
  exact h

/-- C7: on a well-formed table whose sort keys all compute and compare,
`order_by` succeeds in both directions; it is stable — for every key
value, the rows carrying that key appear in the result in exactly their
original order (stated as a filter identity), for `reverse=False` and
`reverse=True` alike; when all keys are pairwise distinct the reversed
sort is the exact reverse of the forward sort; and in both directions
the row names are permuted by the same index permutation as the rows. -/
theorem order_by_stable_reverse_names (t : Table) (key : OKey) (kf : Row → SortKey)
    (hwf : WF t) (hk : ∀ r ∈ t.rows, sortKeyOf key r = .ok (kf r))
    (hcomp : allComparable (t.rows.map kf) = true) :
    ∃ tf tr,
      t.order_by key false = .ok tf ∧
      t.order_by key true = .ok tr ∧
      (∀ k, tf.rows.filter (fun r => decide (kf r = k)) =
        t.rows.filter (fun r => decide (kf r = k))) ∧
      (∀ k, tr.rows.filter (fun r => decide (kf r = k)) =
        t.rows.filter (fun r => decide (kf r = k))) ∧
      ((t.rows.map kf).Pairwise (fun a b => a ≠ b) → tr.rows = tf.rows.reverse) ∧
      (∀ rev : Bool, ∃ is : List Nat,
        List.Perm is (List.range t.rows.length) ∧
        (if rev then tr else tf).rows = is.map (fun i => t.rows.getD i ⟨[], []⟩) ∧
        (if rev then tr else tf).row_names =
          t.row_names.map (fun ns => is.map (fun i => ns.getD i .vnull))) := by
  refine ⟨_, _, order_by_ok t hwf key kf hk hcomp false,
    order_by_ok t hwf key kf hk hcomp true, ?_, ?_, ?_, ?_⟩
  · intro k
    exact order_by_rows_filter t kf false k
  · intro k
    exact order_by_rows_filter t kf true k
  · intro hd
    show (sortedOf t kf true).map (·.2.2) = ((sortedOf t kf false).map (·.2.2)).reverse
    rw [sortedOf_rev_reverse t kf hd, List.map_reverse]
  · intro rev
    refine ⟨(sortedOf t kf rev).map (·.1), sortedOf_fst_perm_range t kf rev, ?_, ?_⟩
    · cases rev with
      | false => exact sortedOf_rows_as_indices t kf false
      | true => exact sortedOf_rows_as_indices t kf true
    · cases rev with
      | false =>
        show t.row_names.map (fun ns => (sortedOf t kf false).map (fun p => ns.getD p.1 .vnull)) =
          t.row_names.map (fun ns => ((sortedOf t kf false).map (·.1)).map (fun i => ns.getD i .vnull))
        apply congrArg (fun f => Option.map f t.row_names)
        funext ns
        rw [List.map_map]
        rfl
      | true =>
        show t.row_names.map (fun ns => (sortedOf t kf true).map (fun p => ns.getD p.1 .vnull)) =
          t.row_names.map (fun ns => ((sortedOf t kf true).map (·.1)).map (fun i => ns.getD i .vnull))
        apply congrArg (fun f => Option.map f t.row_names)
        funext ns
        rw [List.map_map]
        rfl

/-- A four-row named table with duplicated sort keys, used to witness
the stability of `order_by`. -/
def tStab : Table :=
  ⟨["k", "tag"], [dtId, dtId],
    [⟨[.vint 2, .vstr "p"], ["k", "tag"]⟩, ⟨[.vint 1, .vstr "q"], ["k", "tag"]⟩,
     ⟨[.vint 2, .vstr "r"], ["k", "tag"]⟩, ⟨[.vint 1, .vstr "s"], ["k", "tag"]⟩],
    some [.vstr "w", .vstr "x", .vstr "y", .vstr "z"]⟩

/-- The sort key of `tStab` under `order_by("k")`, as a plain
function. -/
def kfStab : Row → SortKey := fun r => .val (r.values.headD .vnull)

/-- C7 witness: the stability, reverse and row-name-permutation
statement instantiated on `tStab` sorted by its first column. -/
theorem order_by_stable_reverse_names_witness :
    WF tStab ∧
    (∀ r ∈ tStab.rows, sortKeyOf (.oStr "k") r = .ok (kfStab r)) ∧
    allComparable (tStab.rows.map kfStab) = true ∧
    (∃ tf tr,
      tStab.order_by (.oStr "k") false = .ok tf ∧
      tStab.order_by (.oStr "k") true = .ok tr ∧
      (∀ k, tf.rows.filter (fun r => decide (kfStab r = k)) =
        tStab.rows.filter (fun r => decide (kfStab r = k))) ∧
      (∀ k, tr.rows.filter (fun r => decide (kfStab r = k)) =
        tStab.rows.filter (fun r => decide (kfStab r = k))) ∧
      ((tStab.rows.map kfStab).Pairwise (fun a b => a ≠ b) → tr.rows = tf.rows.reverse) ∧
      (∀ rev : Bool, ∃ is : List Nat,
        List.Perm is (List.range tStab.rows.length) ∧
        (if rev then tr else tf).rows = is.map (fun i => tStab.rows.getD i ⟨[], []⟩) ∧
        (if rev then tr else tf).row_names =
          tStab.row_names.map (fun ns => is.map (fun i => ns.getD i .vnull)))) :=
  ⟨by decide, by decide, by decide,
    order_by_stable_reverse_names tStab (.oStr "k") kfStab (by decide) (by decide)
      (by decide)⟩

end Agate
